import Mathlib

/-!
# fenrir: chunked decoder, HTML lexer and tree builder

A shallow embedding of `src/fenrir.c`.

Conventions of the embedding.

* A C `char` is a Lean `Char`; the NUL byte is `Char.ofNat 0`.
* A NUL-terminated buffer is a `List Char` holding the bytes in front of the
  terminator.  The terminator sits at index `length`; any index above it is
  outside the allocation.
* In the main loop of the lexer the pair `(body, i)` is carried as the suffix
  `body.drop i`: the empty suffix is the position of the terminator, and
  stepping past it is an out-of-bounds read.  `get_attrs` takes the index
  `i` as a `uint32_t` and is given the whole body and a number below `2 ^ 32`
  that it advances modulo `2 ^ 32`.
* Heap nodes live in a list; a `struct node_t*` is an index into that list and
  `NULL` is `none`.
* Undefined behaviour of the C program (reads outside a buffer, writes through
  `NULL`, use of an indeterminate value, writes past a `malloc`ed block) is
  not given a meaning: the embedding stops and reports which one occurred.
* `malloc`, `realloc` and `strdup` are assumed to succeed.
-/

namespace Fenrir

/-! ## C library -/

/-- The NUL byte that terminates a C string. -/
def NUL : Char := Char.ofNat 0

/-- The single-quote character. -/
def SQUOTE : Char := Char.ofNat 39

/-- The double-quote character. -/
def DQUOTE : Char := Char.ofNat 34

/-- Library function `isspace` of `<ctype.h>` in the C locale: space, `\t`, `\n`, `\v`, `\f`, `\r`. -/
def isspace (c : Char) : Bool :=
  c.toNat = 32 || (9 ≤ c.toNat && c.toNat ≤ 13)

/-- Value of a hexadecimal digit, `none` for any other character (`isxdigit`). -/
def hex_digit_val (c : Char) : Option Nat :=
  let n := c.toNat
  if 48 ≤ n ∧ n ≤ 57 then some (n - 48)
  else if 97 ≤ n ∧ n ≤ 102 then some (n - 87)
  else if 65 ≤ n ∧ n ≤ 70 then some (n - 55)
  else none

/-- Digit values of the longest prefix of hexadecimal digits. -/
def take_hex : List Char → List Nat
  | [] => []
  | c :: rest =>
    match hex_digit_val c with
    | some d => d :: take_hex rest
    | none => []

/-- Number denoted by a list of hexadecimal digit values, most significant first. -/
def hex_value (ds : List Nat) : Nat :=
  ds.foldl (fun acc d => 16 * acc + d) 0

/-- Conversion of the scanned number to `unsigned`: the library converts as
`strtoul` does (64-bit `unsigned long`, saturating, negated when a minus sign
was read) and stores the low 32 bits. -/
def to_unsigned (neg : Bool) (v : Nat) : Nat :=
  let ul := if 2 ^ 64 ≤ v then 2 ^ 64 - 1 else if neg then (2 ^ 64 - v) % 2 ^ 64 else v
  ul % 2 ^ 32

/-- Call `sscanf(s, "%x", &chunk_size)` on the C string `s` (no NUL in it):
white space is skipped, an optional sign and an optional `0x` are read, then
the hexadecimal digits.  The result is `none` when nothing was converted, in
which case `chunk_size` is not assigned.  After `0x` the digit `0` already
read counts as the number when no further digit follows (glibc). -/
def sscanf_hex (s : List Char) : Option Nat :=
  let s1 := s.dropWhile isspace
  let signed : Bool × List Char :=
    match s1 with
    | c :: r => if c = '-' then (true, r) else if c = '+' then (false, r) else (false, s1)
    | [] => (false, s1)
  let digits : List Nat :=
    match signed.2 with
    | c :: x :: r =>
      if c = '0' ∧ (x = 'x' ∨ x = 'X') then 0 :: take_hex r else take_hex signed.2
    | _ => take_hex signed.2
  if digits = [] then none else some (to_unsigned signed.1 (hex_value digits))

/-- The C string that starts at a pointer: the bytes up to the first NUL. -/
def cstr (bytes : List Char) : List Char :=
  bytes.takeWhile (fun c => c ≠ NUL)

/-- Call `strstr(s, "\r\n")`: offset of the first CR LF inside the C string
that starts at `s`, `none` for a `NULL` result. -/
def strstr_crlf : List Char → Option Nat
  | [] => none
  | c :: rest =>
    if c = NUL then none
    else if c = '\r' ∧ rest.head? = some '\n' then some 0
    else (strstr_crlf rest).map (· + 1)

/-! ## Chunked decoder -/

/-- Ways in which `decode_chunked` leaves defined behaviour. -/
inductive decode_fault where
  /-- a read outside the input buffer -/
  | oob_read
  /-- `chunk_size` is read although `sscanf` did not assign it -/
  | indeterminate_size
  /-- `strstr` returned `NULL` and the result is used as a pointer -/
  | null_body
  /-- `out[total] = 0` with `out == NULL` -/
  | null_write
  deriving DecidableEq, Repr

/-- Outcome of `decode_chunked`. -/
inductive decode_result where
  /-- the function returns `out`, with `*out_len = total` -/
  | ok (out : List Char) (total : Nat)
  /-- the function never reaches its `return` with defined behaviour -/
  | fault (f : decode_fault)
  /-- the embedding ran out of steps (never the case, see `decode_chunked`) -/
  | out_of_fuel
  deriving DecidableEq, Repr

/-- The `while (true)` loop of `decode_chunked`.  `buf` is the whole input
buffer, `pos` the offset of `body` in it, `out` the output buffer (`none` is
`NULL`) and `total` its length. -/
def decode_loop : Nat → List Char → Nat → Option (List Char) → Nat → decode_result
  | 0, _, _, _, _ => .out_of_fuel
  | fuel + 1, buf, pos, out, total =>
    if buf.length < pos then .fault .oob_read
    else
      match sscanf_hex (cstr (buf.drop pos)) with
      | none => .fault .indeterminate_size
      | some chunk_size =>
        if chunk_size = 0 then
          match out with
          | none => .fault .null_write
          | some o => .ok o total
        else
          match strstr_crlf (buf.drop pos) with
          | none => .fault .null_body
          | some k =>
            let body := pos + k + 2
            if buf.length + 1 < body + chunk_size then .fault .oob_read
            else
              let chunk := ((buf ++ [NUL]).drop body).take chunk_size
              decode_loop fuel buf (body + (chunk_size + 2) % 2 ^ 32)
                (some (out.getD [] ++ chunk)) (total + chunk_size)

/-- Function `decode_chunked` on a NUL-terminated input buffer.  Every
iteration that continues moves `body` forward by at least two bytes, so
`length + 2` steps are never used up. -/
def decode_chunked (buf : List Char) : decode_result :=
  decode_loop (buf.length + 2) buf 0 none 0

/-! ## Lexer -/

/-- Size of each attribute name and value block. -/
def MAX_ATTR_LEN : Nat := 256

/-- Size of the scratch buffer `lexer->tmp` allocated by `init_lexer`. -/
def TMP_CAP : Nat := 1024

/-- Number of tokens `lexer->toks` has room for (`init_lexer`). -/
def TOKS_CAP : Nat := 1024

/-- Enumeration `token_type_t`. -/
inductive token_type_t where
  | TOK_START_TAG
  | TOK_END_TAG
  | TOK_TEXT
  | TOK_EOF
  deriving DecidableEq, Repr

/-- Enumeration `lexer_state_t`. -/
inductive lexer_state_t where
  | LEX_TEXT
  | LEX_TAG_OPEN
  | LEX_TAG_END
  | LEX_TAG_NAME
  | LEX_ATTRS
  deriving DecidableEq, Repr

/-- One `malloc(MAX_ATTR_LEN)` block as `get_attrs` leaves it: the characters
stored from its start, and whether the terminating NUL was written behind
them.  The block is not initialised, so without the terminator it does not
hold a C string. -/
structure attr_str where
  chars : List Char
  terminated : Bool
  deriving DecidableEq, Repr

/-- Structure `token_t`.  `strdup` gives every tag token its `tag_name` and
every text token its `text`; `attrs` pairs `attr_names[k]` with
`attr_vals[k]`, and `n_attrs` is its length. -/
inductive token_t where
  | start_tag (tag_name : List Char) (attrs : List (attr_str × attr_str))
  | end_tag (tag_name : List Char)
  | text (text : List Char)
  | eof
  deriving DecidableEq, Repr

/-- Structure `lexer_t`: `tmp` holds `tmp[0 .. tmp_len)`, `toks` holds
`toks[0 .. n_toks)`.  The field `state` of the C structure is never used. -/
structure lexer_t where
  tmp : List Char
  toks : List token_t
  deriving DecidableEq, Repr

/-- How a run of `lex` ends. -/
inductive lex_status where
  /-- the main loop read the terminating NUL and `lex` returned -/
  | done
  /-- the loop `while(c == ' ') i++;` never exits -/
  | hang
  /-- `body[i]` is read behind the terminating NUL -/
  | oob_read
  /-- a write behind the end of `lexer->tmp` -/
  | tmp_overflow
  /-- a write behind the end of `lexer->toks` -/
  | toks_overflow
  /-- the embedding ran out of steps -/
  | out_of_fuel
  deriving DecidableEq, Repr

/-- Function `init_lexer`. -/
def init_lexer : lexer_t := ⟨[], []⟩

/-- Token that `emit_token` builds from the scratch buffer. -/
def mk_token (type : token_type_t) (tmp : List Char) : token_t :=
  match type with
  | .TOK_TEXT => .text tmp
  | .TOK_START_TAG => .start_tag tmp []
  | .TOK_END_TAG => .end_tag tmp
  | .TOK_EOF => .eof

/-- Function `emit_token`. -/
def emit_token (lexer : lexer_t) (type : token_type_t) : Except lex_status lexer_t :=
  if lexer.tmp.length = 0 then .ok lexer
  else if TMP_CAP ≤ lexer.tmp.length then .error .tmp_overflow
  else if TOKS_CAP ≤ lexer.toks.length then .error .toks_overflow
  else .ok { tmp := [], toks := lexer.toks ++ [mk_token type lexer.tmp] }

/-- Function `append_to_buffer`. -/
def append_to_buffer (lexer : lexer_t) (c : Char) : Except lex_status lexer_t :=
  if TMP_CAP ≤ lexer.tmp.length then .error .tmp_overflow
  else .ok { lexer with tmp := lexer.tmp ++ [c] }

/-- Number of values of the type `uint32_t`. -/
def UINT32_RANGE : Nat := 2 ^ 32

/-- Character `body[i]` of a NUL-terminated body; the terminator is at index
`length`. -/
def char_at (body : List Char) (i : Nat) : Char := body.getD i NUL

/-- Statements `i++; c = body[i];` of `get_attrs`, whose `i` is a `uint32_t`:
the new values of `c` and `i`. -/
def advance (body : List Char) (i : Nat) : Char × Nat :=
  (char_at body ((i + 1) % UINT32_RANGE), (i + 1) % UINT32_RANGE)

/-- Loop `while(c && isspace(c)) { i++; c = body[i]; }` of `get_attrs`, from
the given `c` and `i`; the result is `c` and `i` behind the loop, `none` when
the steps are used up. -/
def skip_space (body : List Char) : Nat → Char → Nat → Option (Char × Nat)
  | 0, _, _ => none
  | fuel + 1, c, i =>
    if c ≠ NUL ∧ isspace c = true then
      skip_space body fuel (advance body i).1 (advance body i).2
    else some (c, i)

/-- Guarded store `if(... n + 1 < MAX_ATTR_LEN) block[n++] = c`. -/
def attr_put (block : List Char) (c : Char) : List Char :=
  if block.length + 1 < MAX_ATTR_LEN then block ++ [c] else block

/-- Guarded store of the terminator, `if(... n + 1 < MAX_ATTR_LEN) block[n] = 0`. -/
def attr_end (block : List Char) : attr_str :=
  ⟨block, decide (block.length + 1 < MAX_ATTR_LEN)⟩

/-- Key loop of `get_attrs`: the name runs up to `=`, white space, `>` or the
terminator.  The result is `c` and `i` behind the loop and the characters
stored in the key block. -/
def scan_key (body : List Char) : Nat → Char → Nat → List Char →
    Option (Char × Nat × List Char)
  | 0, _, _, _ => none
  | fuel + 1, c, i, key =>
    if c ≠ NUL ∧ c ≠ '=' ∧ isspace c = false ∧ c ≠ '>' then
      scan_key body fuel (advance body i).1 (advance body i).2 (attr_put key c)
    else some (c, i, key)

/-- Value loop of `get_attrs`, with the flag `instr`.  The result is `c` and
`i` behind the loop and the characters stored in the value block. -/
def scan_val (body : List Char) : Nat → Char → Nat → Bool → List Char →
    Option (Char × Nat × List Char)
  | 0, _, _, _, _ => none
  | fuel + 1, c, i, instr, val =>
    if c = NUL ∨ c = '>' then some (c, i, val)
    else if c = SQUOTE ∨ c = DQUOTE then
      scan_val body fuel (advance body i).1 (advance body i).2 (!instr) val
    else if instr = false ∧ isspace c = true then some (c, i, attr_put val c)
    else scan_val body fuel (advance body i).1 (advance body i).2 instr (attr_put val c)

/-- Outer loop `while(c && c != '>')` of `get_attrs`; `acc` holds the
attributes `0 .. attr`.  An inner loop that has not ended after
`2 * length + 2` steps has been in the same state twice and never ends. -/
def get_attrs_loop (body : List Char) : Nat → Char → Nat → List (attr_str × attr_str) →
    Option (Nat × List (attr_str × attr_str))
  | 0, _, _, _ => none
  | fuel + 1, c, i, acc =>
    if c = NUL ∨ c = '>' then some (i, acc)
    else
      match skip_space body (2 * body.length + 2) c i with
      | none => none
      | some (c1, i1) =>
        match scan_key body (2 * body.length + 2) c1 i1 [] with
        | none => none
        | some (c2, i2, key) =>
          match skip_space body (2 * body.length + 2) c2 i2 with
          | none => none
          | some (c3, i3) =>
            if c3 = '=' then
              match skip_space body (2 * body.length + 2) (advance body i3).1
                  (advance body i3).2 with
              | none => none
              | some (c4, i4) =>
                match scan_val body (2 * body.length + 2) c4 i4 false [] with
                | none => none
                | some (c5, i5, val) =>
                  get_attrs_loop body fuel c5 i5 (acc ++ [(attr_end key, attr_end val)])
            else
              get_attrs_loop body fuel c3 i3 (acc ++ [(attr_end key, ⟨[], true⟩)])

/-- Function `get_attrs(c, i, body, ...)`, with `i` below `2 ^ 32`.  The
result is the index it returns and the attribute blocks it filled.  The
counting call and the filling call of `lex` take the same path, because the
flag `count_only` guards stores only; `n_attr` is the length of the list.
`none` stands for a call that does not return within `length + 1` rounds of
the outer loop; in a body shorter than `2 ^ 32` bytes every round moves `i`
forward, so that the call returns. -/
def get_attrs (c : Char) (i : Nat) (body : List Char) :
    Option (Nat × List (attr_str × attr_str)) :=
  get_attrs_loop body (body.length + 1) c i []

/-- Main loop of `lex` on the whole input `body`.  The suffix is `body + i`,
so that `i` is the length of `body` less the length of the suffix. -/
def lex_loop (body : List Char) : Nat → lexer_state_t → List Char → lexer_t →
    lexer_t × lex_status
  | 0, _, _, lexer => (lexer, .out_of_fuel)
  | _ + 1, _, [], lexer => (lexer, .done)
  | fuel + 1, state, c :: rest, lexer =>
    if c = NUL then (lexer, .done)
    else
      match state with
      | .LEX_TEXT =>
        if c = '<' then
          match emit_token lexer .TOK_TEXT with
          | .ok lx => lex_loop body fuel .LEX_TAG_OPEN rest lx
          | .error e => (lexer, e)
        else
          match append_to_buffer lexer c with
          | .ok lx => lex_loop body fuel .LEX_TEXT rest lx
          | .error e => (lexer, e)
      | .LEX_TAG_OPEN =>
        if c = '/' then lex_loop body fuel .LEX_TAG_END rest lexer
        else
          match append_to_buffer lexer c with
          | .ok lx => lex_loop body fuel .LEX_TAG_NAME rest lx
          | .error e => (lexer, e)
      | .LEX_TAG_NAME =>
        if c = '>' ∨ isspace c = true then
          if c = '>' then
            match emit_token lexer .TOK_START_TAG with
            | .ok lx => lex_loop body fuel .LEX_TEXT rest lx
            | .error e => (lexer, e)
          else lex_loop body fuel .LEX_ATTRS rest lexer
        else
          match append_to_buffer lexer c with
          | .ok lx => lex_loop body fuel .LEX_TAG_NAME rest lx
          | .error e => (lexer, e)
      | .LEX_TAG_END =>
        if c = '>' then
          match emit_token lexer .TOK_END_TAG with
          | .ok lx => lex_loop body fuel .LEX_TEXT rest lx
          | .error e => (lexer, e)
        else
          match append_to_buffer lexer c with
          | .ok lx => lex_loop body fuel .LEX_TAG_END rest lx
          | .error e => (lexer, e)
      | .LEX_ATTRS =>
        if c = ' ' then (lexer, .hang)
        else
          match get_attrs c ((body.length - (rest.length + 1)) % UINT32_RANGE) body with
          | none => (lexer, .out_of_fuel)
          | some (j, attrs) =>
            if TMP_CAP ≤ lexer.tmp.length then (lexer, .tmp_overflow)
            else if TOKS_CAP ≤ lexer.toks.length then (lexer, .toks_overflow)
            else
              let lx : lexer_t :=
                { tmp := [], toks := lexer.toks ++ [.start_tag lexer.tmp attrs] }
              if char_at body j = NUL then (lx, .oob_read)
              else lex_loop body fuel .LEX_TEXT (body.drop (j + 1)) lx

/-- Function `lex` on a NUL-terminated body and a lexer.  Every round of the
main loop moves `i` forward by one, but for a round in `LEX_ATTRS`, which
adds a token; the token array has room for `TOKS_CAP` tokens, so the rounds
provided are enough (`lex_returns` shows it for bodies shorter than `2 ^ 32`
bytes, in which `i` never moves backwards). -/
def lex (body : List Char) (lexer : lexer_t) : lexer_t × lex_status :=
  lex_loop body ((body.length + 2) * (TOKS_CAP + 1)) .LEX_TEXT body lexer

/-! ## Tree builder -/

/-- Enumeration `node_type_t`. -/
inductive node_type_t where
  | NODE_NONE
  | NODE_ROOT
  | NODE_H1
  | NODE_P
  | NODE_DIV
  | NODE_LINK
  deriving DecidableEq, Repr

/-- Structure `node_t`.  A pointer to a node is its index in the heap, `none`
is `NULL`.  `childs` holds `childs[0 .. num_childs)`; `cap_childs` only
describes the allocation and `text_level` is never used. -/
structure node_t where
  childs : List Nat
  parent : Option Nat
  text : Option (List Char)
  tag_name : Option (List Char)
  type : node_type_t
  deriving DecidableEq, Repr

/-- Function `create_node`: the fresh node, before it is placed in the heap. -/
def create_node (type : node_type_t) : node_t :=
  { childs := [], parent := none, text := none, tag_name := none, type := type }

/-- Store through a node pointer: the node at `k` is replaced by `f` of it. -/
def heap_update : List node_t → Nat → (node_t → node_t) → List node_t
  | [], _, _ => []
  | n :: rest, 0, f => f n :: rest
  | n :: rest, k + 1, f => n :: heap_update rest k f

/-- Function `node_add_child` on two non-`NULL` pointers. -/
def node_add_child (heap : List node_t) (parent child : Nat) : List node_t :=
  heap_update (heap_update heap parent (fun n => { n with childs := n.childs ++ [child] }))
    child (fun n => { n with parent := some parent })

/-- Function `dom_pop` on a non-`NULL` pointer. -/
def dom_pop (heap : List node_t) (ptr : Nat) : Nat :=
  match heap[ptr]? with
  | none => ptr
  | some n =>
    match n.parent with
    | none => ptr
    | some p => p

/-- Function `tagname_to_node_type`. -/
def tagname_to_node_type (tagname : List Char) : node_type_t :=
  if tagname = "h1".toList then .NODE_H1
  else if tagname = "div".toList then .NODE_DIV
  else if tagname = "a".toList then .NODE_LINK
  else if tagname = "p".toList then .NODE_P
  else .NODE_NONE

/-- State of the token loop of `main`: the heap of nodes and the cursor
`ptr`.  The pointer `root` is index `0`. -/
structure dom_t where
  heap : List node_t
  ptr : Nat
  deriving DecidableEq, Repr

/-- State of `main` before the token loop: `root = create_node(NODE_ROOT)`,
`ptr = root`. -/
def dom_init : dom_t := ⟨[create_node .NODE_ROOT], 0⟩

/-- Body of the token loop of `main`, the `switch (t.type)`. -/
def build_step (d : dom_t) (t : token_t) : dom_t :=
  match t with
  | .text txt =>
    { d with heap := heap_update d.heap d.ptr (fun n =>
        { n with text := some (match n.text with
                               | none => txt
                               | some old => old ++ txt) }) }
  | .start_tag name _ =>
    let push := d.heap.length
    let heap1 := d.heap ++ [{ create_node (tagname_to_node_type name) with tag_name := some name }]
    { heap := node_add_child heap1 d.ptr push, ptr := push }
  | .end_tag _ => { d with ptr := dom_pop d.heap d.ptr }
  | .eof => d

/-- Token loop of `main`, run over a whole token array. -/
def build_tree (toks : List token_t) : dom_t :=
  toks.foldl build_step dom_init

/-! ## Notions used to state the properties -/

/-- Chunked body made of the given chunks, each a size field and a payload:
for every chunk the size field, CR LF, the payload, CR LF, and then the
terminating `0` chunk. -/
def chunked_body (chunks : List (List Char × List Char)) : List Char :=
  (chunks.map (fun c => c.1 ++ "\r\n".toList ++ c.2 ++ "\r\n".toList)).flatten
    ++ "0\r\n\r\n".toList

/-- The characters `s` are a hexadecimal numeral (digits of either case,
leading zeros allowed) that denotes `n`. -/
def hex_numeral (s : List Char) (n : Nat) : Prop :=
  s ≠ [] ∧ (∀ c ∈ s, (hex_digit_val c).isSome = true) ∧
    hex_value (s.filterMap hex_digit_val) = n

/-- Contents of the `Text` tokens of `toks` that are processed while node `k`
is the cursor, in the order of their arrival; `d` is the state in which the
first token arrives. -/
def texts_from (d : dom_t) : List token_t → Nat → List (List Char)
  | [], _ => []
  | t :: ts, k =>
    (match t with
      | .text s => if d.ptr = k then [s] else []
      | _ => []) ++ texts_from (build_step d t) ts k

/-- Text of node `k`, `none` when the node has none (or does not exist). -/
def node_text (d : dom_t) (k : Nat) : Option (List Char) :=
  d.heap[k]?.bind (fun n => n.text)

/-- Names of the `StartTag` tokens, in the order of the sequence. -/
def start_names : List token_t → List (List Char)
  | [] => []
  | .start_tag name _ :: ts => name :: start_names ts
  | _ :: ts => start_names ts

/-- Check that tags are properly nested: `stack` holds the names of the open
`StartTag`s, the most recent first; every `EndTag` must close the most recent
one and none may be left open at the end. -/
def nested_from : List (List Char) → List token_t → Bool
  | stack, [] => stack.isEmpty
  | stack, .start_tag name _ :: ts => nested_from (name :: stack) ts
  | [], .end_tag _ :: _ => false
  | top :: stack, .end_tag name :: ts => decide (top = name) && nested_from stack ts
  | stack, _ :: ts => nested_from stack ts

/-- The token sequence is properly nested. -/
def properly_nested (toks : List token_t) : Prop :=
  nested_from [] toks = true

/-- Test for a `StartTag` token. -/
def is_start : token_t → Bool
  | .start_tag _ _ => true
  | _ => false

/-- Test for an `EndTag` token. -/
def is_end : token_t → Bool
  | .end_tag _ => true
  | _ => false

/-- Number of `StartTag`s that are open after the first `i` tokens: those
seen so far less those closed so far. -/
def open_after (toks : List token_t) (i : Nat) : Nat :=
  (toks.take i).countP is_start - (toks.take i).countP is_end

/-- Largest number of `StartTag`s that are open at the same time, over all
positions of the sequence. -/
def max_open (toks : List token_t) : Nat :=
  ((List.range (toks.length + 1)).map (open_after toks)).foldr max 0

/-- Depths of the nodes of a heap given by its parent pointers, in heap
order: a node without parent has depth `0`, any other node is one level
below its parent.  Parents precede their children in the heap. -/
def depths_of (parents : List (Option Nat)) : List Nat :=
  parents.foldl (fun ds p =>
    ds ++ [match p with
           | none => 0
           | some q => ds.getD q 0 + 1]) []

/-- Depth of every node of the tree, `Root` at depth `0`. -/
def node_depths (d : dom_t) : List Nat :=
  depths_of (d.heap.map (fun n => n.parent))

/-- Maximum depth of the tree. -/
def max_depth (d : dom_t) : Nat :=
  (node_depths d).foldl max 0

/-- Well-formedness of the states that the token loop reaches: the cursor is
a node, node `0` is the parentless `Root`, and every other node is not a
`Root` and has a parent that was created before it. -/
def dom_ok (d : dom_t) : Prop :=
  d.ptr < d.heap.length ∧
  ∀ k n, d.heap[k]? = some n →
    (k = 0 ∧ n.parent = none ∧ n.type = .NODE_ROOT) ∨
    (∃ p, n.parent = some p ∧ p < k ∧ n.type ≠ .NODE_ROOT)

/-- Children lists of a heap: every list is in increasing order of node
index, which is the order in which the nodes were created, and holds only
nodes whose parent pointer leads back to the owner of the list. -/
def childs_ok (heap : List node_t) : Prop :=
  ∀ (k : Nat) (n : node_t), heap[k]? = some n →
    n.childs.Pairwise (fun a b => a < b) ∧
    ∀ c ∈ n.childs, ∃ m : node_t, heap[c]? = some m ∧ m.parent = some k

/-- Children of node `k`, none for an index that is no node. -/
def node_childs (heap : List node_t) (k : Nat) : List Nat :=
  match heap[k]? with
  | some n => n.childs
  | none => []

/-- Parent pointer of node `k`, `none` also for an index that is no node. -/
def parent_of (heap : List node_t) (k : Nat) : Option Nat :=
  heap[k]?.bind (fun n => n.parent)

/-- Pre-order traversal from node `k`, the order in which `print_tree` visits
the nodes: the node itself, then the traversals of its children in the order
of `childs`.  `ch` gives the children of a node; the fuel bounds the depth. -/
def preorder_of (ch : Nat → List Nat) : Nat → Nat → List Nat
  | 0, _ => []
  | fuel + 1, k => k :: ((ch k).map (preorder_of ch fuel)).flatten

/-- Pre-order traversal of the whole tree, from `Root`.  No path is longer
than the number of nodes. -/
def dom_preorder (d : dom_t) : List Nat :=
  preorder_of (node_childs d.heap) d.heap.length 0

/-- The path from the cursor up to `Root`: every node on it but the last is
the last child of the next one, which is its parent and was created before
it; the last node is `Root`. -/
def spine_chain (par : Nat → Option Nat) (ch : Nat → List Nat) : List Nat → Prop
  | [] => False
  | [a] => a = 0
  | a :: b :: rest =>
    (par a = some b ∧ (ch b).getLast? = some a ∧ b < a) ∧ spine_chain par ch (b :: rest)

/-- The list `st` is the path from the cursor of `d` up to `Root`. -/
def spine_ok (d : dom_t) (st : List Nat) : Prop :=
  st.head? = some d.ptr ∧ spine_chain (parent_of d.heap) (node_childs d.heap) st

/-- The pre-order traversal of the tree visits the nodes in the order of
their creation. -/
def preorder_ok (d : dom_t) : Prop :=
  ∀ f, d.heap.length ≤ f → preorder_of (node_childs d.heap) f 0 = List.range d.heap.length

/-- Every node with a parent is listed among the children of that parent. -/
def listed_ok (heap : List node_t) : Prop :=
  ∀ (k : Nat) (n : node_t) (p : Nat), heap[k]? = some n → n.parent = some p →
    ∃ np : node_t, heap[p]? = some np ∧ k ∈ np.childs

/-- Character at the position given by a suffix of the body, the
terminator for the empty suffix. -/
def cur (rest : List Char) : Char := rest.headD NUL

/-- The white-space loop of `get_attrs` read off the rest of the body: the
rest behind the loop.  This and the four definitions below describe
`get_attrs` as long as its index does not wrap around, that is in a body
shorter than `2 ^ 32` bytes. -/
def skip_space_sfx : List Char → List Char
  | [] => []
  | c :: rest => if c ≠ NUL ∧ isspace c = true then skip_space_sfx rest else c :: rest

/-- The key loop of `get_attrs` read off the rest of the body: the rest
behind the loop and the key block. -/
def scan_key_sfx : List Char → List Char → List Char × List Char
  | [], key => ([], key)
  | c :: rest, key =>
    if c ≠ NUL ∧ c ≠ '=' ∧ isspace c = false ∧ c ≠ '>' then scan_key_sfx rest (attr_put key c)
    else (c :: rest, key)

/-- The value loop of `get_attrs` read off the rest of the body: the rest
behind the loop and the value block. -/
def scan_val_sfx : List Char → Bool → List Char → List Char × List Char
  | [], _, val => ([], val)
  | c :: rest, instr, val =>
    if c = NUL ∨ c = '>' then (c :: rest, val)
    else if c = SQUOTE ∨ c = DQUOTE then scan_val_sfx rest (!instr) val
    else if instr = false ∧ isspace c = true then (c :: rest, attr_put val c)
    else scan_val_sfx rest instr (attr_put val c)

/-- The outer loop of `get_attrs` read off the rest of the body. -/
def get_attrs_loop_sfx : Nat → List Char → List (attr_str × attr_str) →
    Option (List Char × List (attr_str × attr_str))
  | 0, _, _ => none
  | fuel + 1, rest, acc =>
    if cur rest = NUL ∨ cur rest = '>' then some (rest, acc)
    else
      let r1 := skip_space_sfx rest
      let k := scan_key_sfx r1 []
      let r2 := skip_space_sfx k.1
      if cur r2 = '=' then
        let r3 := skip_space_sfx r2.tail
        let v := scan_val_sfx r3 false []
        get_attrs_loop_sfx fuel v.1 (acc ++ [(attr_end k.2, attr_end v.2)])
      else
        get_attrs_loop_sfx fuel r2 (acc ++ [(attr_end k.2, ⟨[], true⟩)])

/-- Function `get_attrs` read off the rest of the body: the rest at which it
stops and the attribute blocks. -/
def get_attrs_sfx (rest : List Char) : Option (List Char × List (attr_str × attr_str)) :=
  get_attrs_loop_sfx (rest.length + 1) rest []

/-- Depths met by the pre-order traversal from node `k`, itself at depth
`dep`: the walk goes down the `childs` lists as `print_tree` does, one level
for each step from a node to a child. -/
def depths_from (ch : Nat → List Nat) : Nat → Nat → Nat → List Nat
  | 0, _, _ => []
  | fuel + 1, k, dep => dep :: ((ch k).map (fun c => depths_from ch fuel c (dep + 1))).flatten

/-- Maximum depth of the tree that is reached from `Root` through the
`childs` lists, `Root` at depth `0`. -/
def tree_depth (d : dom_t) : Nat :=
  (depths_from (node_childs d.heap) d.heap.length 0 0).foldl max 0

/-- Nodes whose parent pointer leads to node `k`, in the order of their
creation. -/
def nodes_below (heap : List node_t) (k : Nat) : List Nat :=
  (List.range heap.length).filter (fun c => decide (parent_of heap c = some k))

theorem hex_char_range (c : Char) (h : (hex_digit_val c).isSome = true) :
    48 ≤ c.toNat ∧ c.toNat ≤ 102 ∧ c.toNat ≠ 88 ∧ c.toNat ≠ 120 := by
  unfold hex_digit_val at h
  simp only at h
  split_ifs at h <;> first | omega | simp at h

theorem char_ne_of_toNat {c d : Char} (h : c.toNat ≠ d.toNat) : c ≠ d := by
  intro e; exact h (by rw [e])

theorem hex_char_not_space (c : Char) (h : (hex_digit_val c).isSome = true) :
    isspace c = false := by
  have := hex_char_range c h
  simp [isspace]
  omega

theorem hex_char_ne (c d : Char) (h : (hex_digit_val c).isSome = true)
    (hd : d.toNat < 48 ∨ 102 < d.toNat ∨ d.toNat = 88 ∨ d.toNat = 120) : c ≠ d := by
  have := hex_char_range c h
  apply char_ne_of_toNat
  omega

theorem take_hex_append (s rest : List Char) (x : Char)
    (hs : ∀ c ∈ s, (hex_digit_val c).isSome = true) (hx : hex_digit_val x = none) :
    take_hex (s ++ x :: rest) = s.filterMap hex_digit_val := by
  induction s with
  | nil => simp [take_hex, hx]
  | cons c s ih =>
    have hc := hs c (List.mem_cons_self _ _)
    obtain ⟨d, hd⟩ := Option.isSome_iff_exists.mp hc
    have := ih (fun a ha => hs a (List.mem_cons_of_mem _ ha))
    simp [take_hex, hd, this, List.filterMap_cons]

theorem cstr_hex_append (s rest : List Char)
    (hs : ∀ c ∈ s, (hex_digit_val c).isSome = true) :
    cstr (s ++ '\r' :: rest) = s ++ '\r' :: cstr rest := by
  unfold cstr
  rw [List.takeWhile_append_of_pos]
  · simp [List.takeWhile_cons, NUL]
  · intro a ha
    have := hex_char_ne a NUL (hs a ha) (Or.inl (by decide))
    simpa using this

theorem sscanf_hex_numeral (s rest : List Char) (n : Nat) (hs : hex_numeral s n)
    (hn : n < 2 ^ 32) : sscanf_hex (cstr (s ++ '\r' :: rest)) = some n := by
  obtain ⟨hne, hall, hval⟩ := hs
  rw [cstr_hex_append s rest hall]
  obtain ⟨c, s', rfl⟩ := List.exists_cons_of_ne_nil hne
  have hc := hall c (List.mem_cons_self _ _)
  have hsp := hex_char_not_space c hc
  have hminus := hex_char_ne c '-' hc (Or.inl (by decide))
  have hplus := hex_char_ne c '+' hc (Or.inl (by decide))
  have hth := take_hex_append (c :: s') (cstr rest) '\r' hall (by decide)
  have hdig : (c :: s').filterMap hex_digit_val ≠ [] := by
    obtain ⟨d, hd⟩ := Option.isSome_iff_exists.mp hc
    simp [List.filterMap_cons, hd]
  have hx : ∀ x r, s' ++ '\r' :: cstr rest = x :: r → ¬ (x = 'x' ∨ x = 'X') := by
    intro x r hxr
    cases s' with
    | nil =>
      simp at hxr
      rw [← hxr.1]
      decide
    | cons y ys =>
      simp at hxr
      have hy := hall y (by simp)
      rw [← hxr.1]
      have h1 := hex_char_ne y 'x' hy (Or.inr (Or.inr (Or.inr (by decide))))
      have h2 := hex_char_ne y 'X' hy (Or.inr (Or.inr (Or.inl (by decide))))
      simp [h1, h2]
  unfold sscanf_hex
  simp only [List.cons_append, List.dropWhile_cons, hsp, Bool.false_eq_true, if_false, hminus, hplus]
  cases hrest : s' ++ '\r' :: cstr rest with
  | nil => simp at hrest
  | cons x r =>
    have hx' := hx x r hrest
    simp only [hx', and_false, if_false]
    rw [← hrest, ← List.cons_append, hth]
    simp only [hdig, if_false, hval]
    simp [to_unsigned]
    have : n < 2 ^ 64 := by omega
    rw [if_neg (by omega)]
    omega



theorem strstr_crlf_hex (s rest : List Char)
    (hs : ∀ c ∈ s, (hex_digit_val c).isSome = true) :
    strstr_crlf (s ++ '\r' :: '\n' :: rest) = some s.length := by
  induction s with
  | nil => simp [strstr_crlf, NUL]
  | cons c s ih =>
    have hc := hs c (List.mem_cons_self _ _)
    have h0 := hex_char_ne c NUL hc (Or.inl (by decide))
    have h1 := hex_char_ne c '\r' hc (Or.inl (by decide))
    have := ih (fun a ha => hs a (List.mem_cons_of_mem _ ha))
    simp [strstr_crlf, h0, h1, this]

/-- One round of the loop on a chunk whose size field denotes its length. -/
theorem decode_loop_chunk_wrap (fuel : Nat) (pre size p tail : List Char)
    (out : Option (List Char)) (total : Nat) (hs : hex_numeral size p.length) (hp : p ≠ [])
    (hlen : p.length < 2 ^ 32) :
    decode_loop (fuel + 1) (pre ++ (size ++ "\r\n".toList ++ p ++ "\r\n".toList ++ tail))
        pre.length out total
      = decode_loop fuel (pre ++ (size ++ "\r\n".toList ++ p ++ "\r\n".toList ++ tail))
          (pre.length + size.length + 2 + (p.length + 2) % 2 ^ 32)
          (some (out.getD [] ++ p)) (total + p.length) := by
  have hdrop : (pre ++ (size ++ "\r\n".toList ++ p ++ "\r\n".toList ++ tail)).drop pre.length
      = size ++ '\r' :: '\n' :: (p ++ "\r\n".toList ++ tail) := by
    rw [List.drop_left]; simp
  have hscan := sscanf_hex_numeral size ('\n' :: (p ++ "\r\n".toList ++ tail)) p.length hs hlen
  have hstr := strstr_crlf_hex size (p ++ "\r\n".toList ++ tail) hs.2.1
  have hpos : 0 < p.length := List.length_pos.mpr hp
  have hchunk : (((pre ++ (size ++ "\r\n".toList ++ p ++ "\r\n".toList ++ tail)) ++ [NUL]).drop
      (pre.length + size.length + 2)).take p.length = p := by
    have : (pre ++ (size ++ "\r\n".toList ++ p ++ "\r\n".toList ++ tail)) ++ [NUL]
        = (pre ++ size ++ "\r\n".toList) ++ (p ++ ("\r\n".toList ++ tail ++ [NUL])) := by simp
    rw [this]
    have h2 : pre.length + size.length + 2 = (pre ++ size ++ "\r\n".toList).length := by
      simp [Nat.add_assoc]
    rw [h2, List.drop_left, List.take_left]
  simp only [decode_loop]
  rw [hdrop, hscan, hstr]
  simp only
  rw [if_neg (by simp), if_neg (by omega), if_neg (by simp; omega), hchunk]

/-- One round of the loop on a well-formed chunk shorter than `2 ^ 32 - 2`. -/
theorem decode_loop_chunk (fuel : Nat) (pre size p tail : List Char) (out : Option (List Char))
    (total : Nat) (hs : hex_numeral size p.length) (hp : p ≠ []) (hlen : p.length + 2 < 2 ^ 32) :
    decode_loop (fuel + 1) (pre ++ (size ++ "\r\n".toList ++ p ++ "\r\n".toList ++ tail))
        pre.length out total
      = decode_loop fuel (pre ++ (size ++ "\r\n".toList ++ p ++ "\r\n".toList ++ tail))
          (pre ++ (size ++ "\r\n".toList ++ p ++ "\r\n".toList)).length
          (some (out.getD [] ++ p)) (total + p.length) := by
  rw [decode_loop_chunk_wrap fuel pre size p tail out total hs hp (by omega)]
  have hmod : (p.length + 2) % 2 ^ 32 = p.length + 2 := Nat.mod_eq_of_lt hlen
  rw [hmod]
  congr 1
  simp
  omega



theorem decode_loop_last (fuel : Nat) (pre o : List Char) (total : Nat) :
    decode_loop (fuel + 1) (pre ++ "0\r\n\r\n".toList) pre.length (some o) total = .ok o total := by
  simp only [decode_loop]
  rw [List.drop_left]
  have : sscanf_hex (cstr "0\r\n\r\n".toList) = some 0 := by decide
  rw [this]
  simp

theorem decode_loop_chunks (chunks : List (List Char × List Char)) :
    ∀ (fuel : Nat) (pre o : List Char) (total : Nat),
      (∀ c ∈ chunks, hex_numeral c.1 c.2.length ∧ c.2 ≠ [] ∧ c.2.length + 2 < 2 ^ 32) →
      chunks.length < fuel →
      decode_loop fuel (pre ++ chunked_body chunks) pre.length (some o) total
        = .ok (o ++ (chunks.map (fun c => c.2)).flatten)
            (total + (chunks.map (fun c => c.2.length)).sum) := by
  induction chunks with
  | nil =>
    intro fuel pre o total _ hf
    obtain ⟨f, rfl⟩ : ∃ f, fuel = f + 1 := ⟨fuel - 1, by simp at hf; omega⟩
    simpa [chunked_body] using decode_loop_last f pre o total
  | cons c cs ih =>
    intro fuel pre o total hall hf
    obtain ⟨f, rfl⟩ : ∃ f, fuel = f + 1 := ⟨fuel - 1, by simp at hf; omega⟩
    obtain ⟨hs, hp, hlen⟩ := hall c (List.mem_cons_self _ _)
    have hbody : chunked_body (c :: cs)
        = c.1 ++ "\r\n".toList ++ c.2 ++ "\r\n".toList ++ chunked_body cs := by
      simp [chunked_body]
    rw [hbody, decode_loop_chunk f pre c.1 c.2 (chunked_body cs) (some o) total hs hp hlen]
    have hassoc : pre ++ (c.1 ++ "\r\n".toList ++ c.2 ++ "\r\n".toList ++ chunked_body cs)
        = (pre ++ (c.1 ++ "\r\n".toList ++ c.2 ++ "\r\n".toList)) ++ chunked_body cs := by
      simp
    rw [hassoc, ih f _ _ _ (fun a ha => hall a (List.mem_cons_of_mem _ ha))
      (by simp at hf; omega)]
    simp [Nat.add_assoc]

/-- C1 (amended): for every non-empty list of chunks whose payloads are
non-empty and shorter than `2 ^ 32 - 2` bytes and whose size fields are
hexadecimal numerals of the payload lengths, `decode_chunked` applied to the
chunked body returns the concatenation of the payloads and sets the output
length to the sum of the payload lengths. -/
theorem decode_chunked_payloads (chunks : List (List Char × List Char))
    (hne : chunks ≠ [])
    (hsize : ∀ c ∈ chunks, hex_numeral c.1 c.2.length)
    (hpay : ∀ c ∈ chunks, c.2 ≠ [] ∧ c.2.length + 2 < 2 ^ 32) :
    decode_chunked (chunked_body chunks)
      = .ok (chunks.map (fun c => c.2)).flatten ((chunks.map (fun c => c.2.length)).sum) := by
  obtain ⟨c, cs, rfl⟩ := List.exists_cons_of_ne_nil hne
  have hall : ∀ a ∈ c :: cs, hex_numeral a.1 a.2.length ∧ a.2 ≠ [] ∧ a.2.length + 2 < 2 ^ 32 :=
    fun a ha => ⟨hsize a ha, hpay a ha⟩
  obtain ⟨hs, hp, hlen⟩ := hall c (List.mem_cons_self _ _)
  have hbody : chunked_body (c :: cs)
      = c.1 ++ "\r\n".toList ++ c.2 ++ "\r\n".toList ++ chunked_body cs := by
    simp [chunked_body]
  unfold decode_chunked
  rw [hbody]
  have h1 := decode_loop_chunk
    ((c.1 ++ "\r\n".toList ++ c.2 ++ "\r\n".toList ++ chunked_body cs).length + 1)
    [] c.1 c.2 (chunked_body cs) none 0 hs hp hlen
  simp only [List.nil_append, List.length_nil] at h1
  rw [h1]
  have h2 := decode_loop_chunks cs
    ((c.1 ++ "\r\n".toList ++ c.2 ++ "\r\n".toList ++ chunked_body cs).length + 1)
    (c.1 ++ "\r\n".toList ++ c.2 ++ "\r\n".toList) ([] ++ c.2) (0 + c.2.length)
    (fun a ha => hall a (List.mem_cons_of_mem _ ha))
    (by
      have : cs.length ≤ (chunked_body cs).length := by
        clear h1 hbody hall hpay hsize hne
        induction cs with
        | nil => simp
        | cons a as ih =>
          simp [chunked_body] at ih ⊢
          omega
      simp only [List.length_append]
      omega)
  simp only [List.append_assoc] at h2 ⊢
  simp only [Option.getD_none]
  rw [h2]
  simp



/-- C1 at the two chunks `Wiki` and `pedia`. -/
theorem decode_chunked_payloads_witness :
    [("4".toList, "Wiki".toList), ("5".toList, "pedia".toList)] ≠ [] ∧
    decode_chunked "4\r\nWiki\r\n5\r\npedia\r\n0\r\n\r\n".toList
      = .ok "Wikipedia".toList 9 :=
  ⟨by decide,
   decode_chunked_payloads [("4".toList, "Wiki".toList), ("5".toList, "pedia".toList)]
    (by decide)
    (by
      intro c hc
      simp only [List.mem_cons, List.mem_singleton, List.not_mem_nil, or_false] at hc
      rcases hc with rfl | rfl <;> exact ⟨by decide, by decide, by decide⟩)
    (by
      intro c hc
      simp only [List.mem_cons, List.mem_singleton, List.not_mem_nil, or_false] at hc
      rcases hc with rfl | rfl <;> exact ⟨by decide, by decide⟩)⟩

theorem sscanf_hex_z (rest : List Char) : sscanf_hex ('z' :: rest) = none := by
  cases rest with
  | nil => decide
  | cons x r =>
    have h1 : isspace 'z' = false := by decide
    have h2 : hex_digit_val 'z' = none := by decide
    simp [sscanf_hex, List.dropWhile_cons, h1, take_hex, h2]

/-- A chunk of `2 ^ 32 - 2` bytes: `chunk_size + 2` wraps to `0`, `body` stays at the
payload and the next size is scanned from the payload itself. -/
theorem decode_chunked_wrap_z (size p : List Char) (hs : hex_numeral size (p.length + 1))
    (hlen : p.length + 1 + 2 = 2 ^ 32) :
    decode_chunked (chunked_body [(size, 'z' :: p)]) = .fault .indeterminate_size := by
  have hbody : chunked_body [(size, 'z' :: p)]
      = [] ++ (size ++ "\r\n".toList ++ ('z' :: p) ++ "\r\n".toList ++ "0\r\n\r\n".toList) := by
    simp [chunked_body]
  unfold decode_chunked
  rw [hbody, List.length_append, List.length_nil]
  have h1 := decode_loop_chunk_wrap
    (0 + (size ++ "\r\n".toList ++ ('z' :: p) ++ "\r\n".toList ++ "0\r\n\r\n".toList).length + 1)
    [] size ('z' :: p) "0\r\n\r\n".toList none 0 hs (by simp)
    (by simp only [List.length_cons]; omega)
  have h1' : decode_loop
      (0 + (size ++ "\r\n".toList ++ ('z' :: p) ++ "\r\n".toList ++ "0\r\n\r\n".toList).length + 2)
      ([] ++ (size ++ "\r\n".toList ++ ('z' :: p) ++ "\r\n".toList ++ "0\r\n\r\n".toList))
      0 none 0 = _ := h1
  rw [h1']
  have hmod : (('z' :: p).length + 2) % 2 ^ 32 = 0 := by
    simp only [List.length_cons]
    rw [hlen]
    exact Nat.mod_self _
  rw [hmod]
  simp only [decode_loop]
  have hdrop : List.drop (([] : List Char).length + size.length + 2 + 0)
      ([] ++ (size ++ "\r\n".toList ++ ('z' :: p) ++ "\r\n".toList ++ "0\r\n\r\n".toList))
      = 'z' :: (p ++ "\r\n".toList ++ "0\r\n\r\n".toList) := by
    have : [] ++ (size ++ "\r\n".toList ++ ('z' :: p) ++ "\r\n".toList ++ "0\r\n\r\n".toList)
        = (size ++ "\r\n".toList) ++ ('z' :: (p ++ "\r\n".toList ++ "0\r\n\r\n".toList)) := by
      simp
    rw [this]
    have h2 : ([] : List Char).length + size.length + 2 + 0 = (size ++ "\r\n".toList).length := by
      simp
    rw [h2, List.drop_left]
  rw [hdrop]
  have hc : cstr ('z' :: (p ++ "\r\n".toList ++ "0\r\n\r\n".toList))
      = 'z' :: cstr (p ++ "\r\n".toList ++ "0\r\n\r\n".toList) := by
    simp [cstr, List.takeWhile_cons, NUL]
  rw [hc, sscanf_hex_z]
  simp

/-- C1 fails as stated: for one chunk of `2 ^ 32 - 2` bytes with the size field
`fffffffe` the sum `chunk_size + 2` wraps to `0` in `unsigned` arithmetic, so
`body` is not moved behind the payload and no decoded buffer is returned. -/
theorem decode_chunked_wraps :
    hex_numeral "fffffffe".toList (List.replicate 4294967294 'z').length ∧
    List.replicate 4294967294 'z' ≠ [] ∧
    decode_chunked (chunked_body [("fffffffe".toList, List.replicate 4294967294 'z')])
      = .fault .indeterminate_size := by
  have hrep : List.replicate 4294967294 'z' = 'z' :: List.replicate 4294967293 'z' :=
    List.replicate_succ 'z' 4294967293
  have hlen : (List.replicate 4294967293 'z').length = 4294967293 := List.length_replicate _ _
  rw [hrep]
  refine ⟨⟨by decide, by decide, ?_⟩, List.cons_ne_nil _ _, ?_⟩
  · rw [List.length_cons, hlen]
    decide
  · apply decode_chunked_wrap_z
    · refine ⟨by decide, by decide, ?_⟩
      rw [hlen]
      decide
    · rw [hlen]
      decide


/-- C2 at the failing input `"5\r\nab"`: the chunk declares five bytes, two
are left in the buffer; `memcpy` reads five bytes from the payload position
and so reads behind the terminating NUL.  No error is reported. -/
theorem decode_chunked_truncated :
    decode_chunked "5\r\nab".toList = .fault .oob_read := by
  decide

/-- C3 at two failing inputs: with a size field that holds no hexadecimal
digit `sscanf` assigns nothing, its return value is not tested and the
unassigned `chunk_size` is used, in the first round as well as in a later
one. -/
theorem decode_chunked_non_hex :
    decode_chunked "zz\r\nabc\r\n0\r\n\r\n".toList = .fault .indeterminate_size ∧
    decode_chunked "1\r\na\r\nzz\r\nb\r\n0\r\n\r\n".toList
      = .fault .indeterminate_size := by
  constructor <;> decide

/-! ## `get_attrs` in a body shorter than `2 ^ 32` bytes -/

theorem char_at_append (pre s : List Char) : char_at (pre ++ s) pre.length = cur s := by
  unfold char_at cur
  cases s with
  | nil => simp
  | cons c r =>
    rw [List.getD_eq_getElem?_getD, List.getElem?_append_right (Nat.le_refl _), Nat.sub_self]
    simp

theorem advance_append (pre r : List Char) (c : Char)
    (h : (pre ++ c :: r).length < UINT32_RANGE) :
    advance (pre ++ c :: r) pre.length = (cur r, (pre ++ [c]).length) := by
  have hlt : pre.length + 1 < UINT32_RANGE := by
    simp only [List.length_append, List.length_cons] at h
    omega
  have hb : pre ++ c :: r = (pre ++ [c]) ++ r := by simp
  have hl : (pre ++ [c]).length = pre.length + 1 := by simp
  unfold advance
  rw [Nat.mod_eq_of_lt hlt, hb, ← hl, char_at_append]

/-- The white-space loop, on the rest `s` of the body at offset `pre.length`. -/
theorem skip_space_sfx_spec (body : List Char) (hlen : body.length < UINT32_RANGE) :
    ∀ (s pre : List Char) (fuel : Nat), body = pre ++ s → s.length < fuel →
      ∃ pre' : List Char, body = pre' ++ skip_space_sfx s ∧
        skip_space body fuel (cur s) pre.length = some (cur (skip_space_sfx s), pre'.length) := by
  intro s
  induction s with
  | nil =>
    intro pre fuel hb hf
    obtain ⟨f, rfl⟩ : ∃ f, fuel = f + 1 := ⟨fuel - 1, by omega⟩
    exact ⟨pre, hb, by simp [skip_space, skip_space_sfx, cur]⟩
  | cons c r ih =>
    intro pre fuel hb hf
    obtain ⟨f, rfl⟩ : ∃ f, fuel = f + 1 := ⟨fuel - 1, by omega⟩
    simp only [List.length_cons] at hf
    by_cases h : c ≠ NUL ∧ isspace c = true
    · have hadv : advance body pre.length = (cur r, (pre ++ [c]).length) := by
        subst hb
        exact advance_append pre r c hlen
      obtain ⟨pre', hb', hres⟩ := ih (pre ++ [c]) f (by simp [hb]) (by omega)
      refine ⟨pre', ?_, ?_⟩
      · rw [skip_space_sfx, if_pos h]; exact hb'
      · rw [skip_space, show cur (c :: r) = c from rfl, if_pos h, hadv, hres, skip_space_sfx,
          if_pos h]
    · refine ⟨pre, ?_, ?_⟩
      · rw [skip_space_sfx, if_neg h]; exact hb
      · rw [skip_space, show cur (c :: r) = c from rfl, if_neg h, skip_space_sfx, if_neg h]
        rfl

/-- The key loop, on the rest `s` of the body at offset `pre.length`. -/
theorem scan_key_sfx_spec (body : List Char) (hlen : body.length < UINT32_RANGE) :
    ∀ (s pre : List Char) (fuel : Nat) (key : List Char), body = pre ++ s → s.length < fuel →
      ∃ pre' : List Char, body = pre' ++ (scan_key_sfx s key).1 ∧
        scan_key body fuel (cur s) pre.length key
          = some (cur (scan_key_sfx s key).1, pre'.length, (scan_key_sfx s key).2) := by
  intro s
  induction s with
  | nil =>
    intro pre fuel key hb hf
    obtain ⟨f, rfl⟩ : ∃ f, fuel = f + 1 := ⟨fuel - 1, by omega⟩
    exact ⟨pre, hb, by simp [scan_key, scan_key_sfx, cur]⟩
  | cons c r ih =>
    intro pre fuel key hb hf
    obtain ⟨f, rfl⟩ : ∃ f, fuel = f + 1 := ⟨fuel - 1, by omega⟩
    simp only [List.length_cons] at hf
    by_cases h : c ≠ NUL ∧ c ≠ '=' ∧ isspace c = false ∧ c ≠ '>'
    · have hadv : advance body pre.length = (cur r, (pre ++ [c]).length) := by
        subst hb
        exact advance_append pre r c hlen
      obtain ⟨pre', hb', hres⟩ := ih (pre ++ [c]) f (attr_put key c) (by simp [hb]) (by omega)
      refine ⟨pre', ?_, ?_⟩
      · rw [scan_key_sfx, if_pos h]; exact hb'
      · rw [scan_key, show cur (c :: r) = c from rfl, if_pos h, hadv, hres, scan_key_sfx,
          if_pos h]
    · refine ⟨pre, ?_, ?_⟩
      · rw [scan_key_sfx, if_neg h]; exact hb
      · rw [scan_key, show cur (c :: r) = c from rfl, if_neg h, scan_key_sfx, if_neg h]
        rfl

/-- The value loop, on the rest `s` of the body at offset `pre.length`. -/
theorem scan_val_sfx_spec (body : List Char) (hlen : body.length < UINT32_RANGE) :
    ∀ (s pre : List Char) (fuel : Nat) (instr : Bool) (val : List Char),
      body = pre ++ s → s.length < fuel →
      ∃ pre' : List Char, body = pre' ++ (scan_val_sfx s instr val).1 ∧
        scan_val body fuel (cur s) pre.length instr val
          = some (cur (scan_val_sfx s instr val).1, pre'.length,
              (scan_val_sfx s instr val).2) := by
  intro s
  induction s with
  | nil =>
    intro pre fuel instr val hb hf
    obtain ⟨f, rfl⟩ : ∃ f, fuel = f + 1 := ⟨fuel - 1, by omega⟩
    exact ⟨pre, hb, by simp [scan_val, scan_val_sfx, cur]⟩
  | cons c r ih =>
    intro pre fuel instr val hb hf
    obtain ⟨f, rfl⟩ : ∃ f, fuel = f + 1 := ⟨fuel - 1, by omega⟩
    simp only [List.length_cons] at hf
    have hadv : advance body pre.length = (cur r, (pre ++ [c]).length) := by
      subst hb
      exact advance_append pre r c hlen
    have hcur : cur (c :: r) = c := rfl
    by_cases h1 : c = NUL ∨ c = '>'
    · refine ⟨pre, ?_, ?_⟩
      · rw [scan_val_sfx, if_pos h1]; exact hb
      · rw [scan_val, hcur, if_pos h1, scan_val_sfx, if_pos h1]
        rfl
    · by_cases h2 : c = SQUOTE ∨ c = DQUOTE
      · obtain ⟨pre', hb', hres⟩ := ih (pre ++ [c]) f (!instr) val (by simp [hb]) (by omega)
        refine ⟨pre', ?_, ?_⟩
        · rw [scan_val_sfx, if_neg h1, if_pos h2]; exact hb'
        · rw [scan_val, hcur, if_neg h1, if_pos h2, hadv, hres, scan_val_sfx, if_neg h1,
            if_pos h2]
      · by_cases h3 : instr = false ∧ isspace c = true
        · refine ⟨pre, ?_, ?_⟩
          · rw [scan_val_sfx, if_neg h1, if_neg h2, if_pos h3]; exact hb
          · rw [scan_val, hcur, if_neg h1, if_neg h2, if_pos h3, scan_val_sfx, if_neg h1,
              if_neg h2, if_pos h3]
            rfl
        · obtain ⟨pre', hb', hres⟩ := ih (pre ++ [c]) f instr (attr_put val c) (by simp [hb])
            (by omega)
          refine ⟨pre', ?_, ?_⟩
          · rw [scan_val_sfx, if_neg h1, if_neg h2, if_neg h3]; exact hb'
          · rw [scan_val, hcur, if_neg h1, if_neg h2, if_neg h3, hadv, hres, scan_val_sfx,
              if_neg h1, if_neg h2, if_neg h3]

theorem suffix_length_lt (body pre s : List Char) (hb : body = pre ++ s) :
    s.length < 2 * body.length + 2 := by
  rw [hb, List.length_append]
  omega

/-- The outer loop of `get_attrs`, on the rest `s` of the body at offset
`pre.length`. -/
theorem get_attrs_loop_sfx_spec (body : List Char) (hlen : body.length < UINT32_RANGE) :
    ∀ (fuel : Nat) (s pre : List Char) (acc : List (attr_str × attr_str)) (fuel' : Nat)
      (rest : List Char) (attrs : List (attr_str × attr_str)),
      body = pre ++ s → fuel ≤ fuel' → get_attrs_loop_sfx fuel s acc = some (rest, attrs) →
      ∃ pre' : List Char, body = pre' ++ rest ∧
        get_attrs_loop body fuel' (cur s) pre.length acc = some (pre'.length, attrs) := by
  intro fuel
  induction fuel with
  | zero =>
    intro s pre acc fuel' rest attrs _ _ h
    simp [get_attrs_loop_sfx] at h
  | succ f ih =>
    intro s pre acc fuel' rest attrs hb hf h
    obtain ⟨f', rfl⟩ : ∃ f', fuel' = f' + 1 := ⟨fuel' - 1, by omega⟩
    rw [get_attrs_loop_sfx] at h
    rw [get_attrs_loop]
    by_cases hc : cur s = NUL ∨ cur s = '>'
    · rw [if_pos hc] at h
      rw [if_pos hc]
      simp only [Option.some.injEq, Prod.mk.injEq] at h
      obtain ⟨rfl, rfl⟩ := h
      exact ⟨pre, hb, rfl⟩
    · rw [if_neg hc] at h
      rw [if_neg hc]
      dsimp only at h
      obtain ⟨p1, hb1, h1⟩ := skip_space_sfx_spec body hlen s pre (2 * body.length + 2) hb
        (suffix_length_lt body pre s hb)
      obtain ⟨p2, hb2, h2⟩ := scan_key_sfx_spec body hlen (skip_space_sfx s) p1
        (2 * body.length + 2) [] hb1 (suffix_length_lt body p1 _ hb1)
      obtain ⟨p3, hb3, h3⟩ := skip_space_sfx_spec body hlen (scan_key_sfx (skip_space_sfx s) []).1
        p2 (2 * body.length + 2) hb2 (suffix_length_lt body p2 _ hb2)
      rw [h1]
      dsimp only
      rw [h2]
      dsimp only
      rw [h3]
      dsimp only
      by_cases he : cur (skip_space_sfx (scan_key_sfx (skip_space_sfx s) []).1) = '='
      · rw [if_pos he] at h
        rw [if_pos he]
        obtain ⟨t, ht⟩ : ∃ t, skip_space_sfx (scan_key_sfx (skip_space_sfx s) []).1 = '=' :: t := by
          cases hr : skip_space_sfx (scan_key_sfx (skip_space_sfx s) []).1 with
          | nil => rw [hr] at he; exact absurd he (by decide)
          | cons x t =>
            rw [hr] at he
            exact ⟨t, by rw [show x = '=' from he]⟩
        rw [ht] at hb3 h
        simp only [List.tail_cons] at h
        have hadv : advance body p3.length = (cur t, (p3 ++ ['=']).length) := by
          have := advance_append p3 t '=' (by rw [← hb3]; exact hlen)
          rw [← hb3] at this
          exact this
        have hb3' : body = (p3 ++ ['=']) ++ t := by rw [hb3]; simp
        obtain ⟨p4, hb4, h4⟩ := skip_space_sfx_spec body hlen t (p3 ++ ['='])
          (2 * body.length + 2) hb3' (suffix_length_lt body _ t hb3')
        obtain ⟨p5, hb5, h5⟩ := scan_val_sfx_spec body hlen (skip_space_sfx t) p4
          (2 * body.length + 2) false [] hb4 (suffix_length_lt body p4 _ hb4)
        rw [hadv]
        dsimp only
        rw [h4]
        dsimp only
        rw [h5]
        dsimp only
        exact ih _ p5 _ f' rest attrs hb5 (by omega) h
      · rw [if_neg he] at h
        rw [if_neg he]
        exact ih _ p3 _ f' rest attrs hb3 (by omega) h

/-- Function `get_attrs` in a body shorter than `2 ^ 32` bytes, called at the
rest `s` of the body: it stops where the reading of the rest stops and fills
the same blocks. -/
theorem get_attrs_sfx_spec (body : List Char) (hlen : body.length < UINT32_RANGE)
    (s pre rest : List Char) (attrs : List (attr_str × attr_str))
    (hb : body = pre ++ s) (h : get_attrs_sfx s = some (rest, attrs)) :
    ∃ pre' : List Char, body = pre' ++ rest ∧
      get_attrs (cur s) pre.length body = some (pre'.length, attrs) := by
  unfold get_attrs
  unfold get_attrs_sfx at h
  exact get_attrs_loop_sfx_spec body hlen _ s pre [] _ rest attrs hb
    (by rw [hb, List.length_append]; omega) h

/-! ## Lexer: proofs -/

theorem lex_loop_nil {body : List Char} (fuel : Nat) (state : lexer_state_t) (lexer : lexer_t) :
    lex_loop body (fuel + 1) state [] lexer = (lexer, .done) := by
  simp only [lex_loop]

/-- A run of text characters is appended to the scratch buffer. -/
theorem lex_loop_text_run {body : List Char} (t rest : List Char) (ht : ∀ c ∈ t, c ≠ NUL ∧ c ≠ '<') :
    ∀ (fuel : Nat) (tmp : List Char) (toks : List token_t),
      tmp.length + t.length ≤ TMP_CAP →
      lex_loop body (fuel + t.length) .LEX_TEXT (t ++ rest) ⟨tmp, toks⟩
        = lex_loop body fuel .LEX_TEXT rest ⟨tmp ++ t, toks⟩ := by
  induction t with
  | nil => intro fuel tmp toks _; simp
  | cons c t ih =>
    intro fuel tmp toks hcap
    obtain ⟨h0, h1⟩ := ht c (List.mem_cons_self _ _)
    simp only [List.length_cons] at hcap
    have hlt : ¬ TMP_CAP ≤ tmp.length := by omega
    have hstep : lex_loop body (fuel + t.length + 1) .LEX_TEXT (c :: (t ++ rest)) ⟨tmp, toks⟩
        = lex_loop body (fuel + t.length) .LEX_TEXT (t ++ rest) ⟨tmp ++ [c], toks⟩ := by
      simp only [lex_loop, h0, h1, if_false, append_to_buffer, hlt]
    have := ih (fun a ha => ht a (List.mem_cons_of_mem _ ha)) fuel (tmp ++ [c]) toks
      (by simp only [List.length_append, List.length_singleton]; omega)
    simp only [List.length_cons, List.cons_append]
    rw [← Nat.add_assoc, hstep, this]
    simp

/-- A run of tag-name characters is appended to the scratch buffer. -/
theorem lex_loop_name_run {body : List Char} (n rest : List Char)
    (hn : ∀ c ∈ n, c ≠ NUL ∧ c ≠ '>' ∧ isspace c = false) :
    ∀ (fuel : Nat) (tmp : List Char) (toks : List token_t),
      tmp.length + n.length ≤ TMP_CAP →
      lex_loop body (fuel + n.length) .LEX_TAG_NAME (n ++ rest) ⟨tmp, toks⟩
        = lex_loop body fuel .LEX_TAG_NAME rest ⟨tmp ++ n, toks⟩ := by
  induction n with
  | nil => intro fuel tmp toks _; simp
  | cons c n ih =>
    intro fuel tmp toks hcap
    obtain ⟨h0, h1, h2⟩ := hn c (List.mem_cons_self _ _)
    simp only [List.length_cons] at hcap
    have hlt : ¬ TMP_CAP ≤ tmp.length := by omega
    have hstep : lex_loop body (fuel + n.length + 1) .LEX_TAG_NAME (c :: (n ++ rest)) ⟨tmp, toks⟩
        = lex_loop body (fuel + n.length) .LEX_TAG_NAME (n ++ rest) ⟨tmp ++ [c], toks⟩ := by
      simp only [lex_loop, h0, h1, h2, if_false, append_to_buffer, hlt, or_self,
        Bool.false_eq_true]
    have := ih (fun a ha => hn a (List.mem_cons_of_mem _ ha)) fuel (tmp ++ [c]) toks
      (by simp only [List.length_append, List.length_singleton]; omega)
    simp only [List.length_cons, List.cons_append]
    rw [← Nat.add_assoc, hstep, this]
    simp

/-- A run of end-tag-name characters is appended to the scratch buffer. -/
theorem lex_loop_end_run {body : List Char} (n rest : List Char) (hn : ∀ c ∈ n, c ≠ NUL ∧ c ≠ '>') :
    ∀ (fuel : Nat) (tmp : List Char) (toks : List token_t),
      tmp.length + n.length ≤ TMP_CAP →
      lex_loop body (fuel + n.length) .LEX_TAG_END (n ++ rest) ⟨tmp, toks⟩
        = lex_loop body fuel .LEX_TAG_END rest ⟨tmp ++ n, toks⟩ := by
  induction n with
  | nil => intro fuel tmp toks _; simp
  | cons c n ih =>
    intro fuel tmp toks hcap
    obtain ⟨h0, h1⟩ := hn c (List.mem_cons_self _ _)
    simp only [List.length_cons] at hcap
    have hlt : ¬ TMP_CAP ≤ tmp.length := by omega
    have hstep : lex_loop body (fuel + n.length + 1) .LEX_TAG_END (c :: (n ++ rest)) ⟨tmp, toks⟩
        = lex_loop body (fuel + n.length) .LEX_TAG_END (n ++ rest) ⟨tmp ++ [c], toks⟩ := by
      simp only [lex_loop, h0, h1, if_false, append_to_buffer, hlt]
    have := ih (fun a ha => hn a (List.mem_cons_of_mem _ ha)) fuel (tmp ++ [c]) toks
      (by simp only [List.length_append, List.length_singleton]; omega)
    simp only [List.length_cons, List.cons_append]
    rw [← Nat.add_assoc, hstep, this]
    simp

/-- The character `<` in state `LEX_TEXT` with an empty scratch buffer. -/
theorem lex_loop_open_empty {body : List Char} (fuel : Nat) (rest : List Char) (toks : List token_t) :
    lex_loop body (fuel + 1) .LEX_TEXT ('<' :: rest) ⟨[], toks⟩
      = lex_loop body fuel .LEX_TAG_OPEN rest ⟨[], toks⟩ := by
  have h : ('<' : Char) ≠ NUL := by decide
  simp only [lex_loop, h, if_false, emit_token, List.length_nil, if_true]

/-- The character `<` in state `LEX_TEXT` with pending text. -/
theorem lex_loop_open_text {body : List Char} (fuel : Nat) (rest tmp : List Char) (toks : List token_t)
    (h0 : tmp ≠ []) (h1 : tmp.length < TMP_CAP) (h2 : toks.length < TOKS_CAP) :
    lex_loop body (fuel + 1) .LEX_TEXT ('<' :: rest) ⟨tmp, toks⟩
      = lex_loop body fuel .LEX_TAG_OPEN rest ⟨[], toks ++ [.text tmp]⟩ := by
  have h : ('<' : Char) ≠ NUL := by decide
  have h3 : tmp.length ≠ 0 := by
    intro e; exact h0 (List.length_eq_zero.mp e)
  have h4 : ¬ TMP_CAP ≤ tmp.length := by omega
  have h5 : ¬ TOKS_CAP ≤ toks.length := by omega
  simp only [lex_loop, h, if_false, emit_token, h3, h4, h5, if_true, mk_token]

/-- First character of a tag name in state `LEX_TAG_OPEN`. -/
theorem lex_loop_tag_open {body : List Char} (fuel : Nat) (c : Char) (rest tmp : List Char) (toks : List token_t)
    (h0 : c ≠ NUL) (h1 : c ≠ '/') (h2 : tmp.length < TMP_CAP) :
    lex_loop body (fuel + 1) .LEX_TAG_OPEN (c :: rest) ⟨tmp, toks⟩
      = lex_loop body fuel .LEX_TAG_NAME rest ⟨tmp ++ [c], toks⟩ := by
  have h4 : ¬ TMP_CAP ≤ tmp.length := by omega
  simp only [lex_loop, h0, h1, if_false, append_to_buffer, h4]

/-- The character `/` in state `LEX_TAG_OPEN`. -/
theorem lex_loop_tag_slash {body : List Char} (fuel : Nat) (rest : List Char) (lexer : lexer_t) :
    lex_loop body (fuel + 1) .LEX_TAG_OPEN ('/' :: rest) lexer
      = lex_loop body fuel .LEX_TAG_END rest lexer := by
  have h : ('/' : Char) ≠ NUL := by decide
  simp only [lex_loop, h, if_false, if_true]

/-- The character `>` in state `LEX_TAG_NAME`. -/
theorem lex_loop_name_close {body : List Char} (fuel : Nat) (rest tmp : List Char) (toks : List token_t)
    (h0 : tmp ≠ []) (h1 : tmp.length < TMP_CAP) (h2 : toks.length < TOKS_CAP) :
    lex_loop body (fuel + 1) .LEX_TAG_NAME ('>' :: rest) ⟨tmp, toks⟩
      = lex_loop body fuel .LEX_TEXT rest ⟨[], toks ++ [.start_tag tmp []]⟩ := by
  have h : ('>' : Char) ≠ NUL := by decide
  have h3 : tmp.length ≠ 0 := by
    intro e; exact h0 (List.length_eq_zero.mp e)
  have h4 : ¬ TMP_CAP ≤ tmp.length := by omega
  have h5 : ¬ TOKS_CAP ≤ toks.length := by omega
  simp only [lex_loop, h, if_false, emit_token, h3, h4, h5, if_true, mk_token, true_or]

/-- The character `>` in state `LEX_TAG_END`. -/
theorem lex_loop_end_close {body : List Char} (fuel : Nat) (rest tmp : List Char) (toks : List token_t)
    (h0 : tmp ≠ []) (h1 : tmp.length < TMP_CAP) (h2 : toks.length < TOKS_CAP) :
    lex_loop body (fuel + 1) .LEX_TAG_END ('>' :: rest) ⟨tmp, toks⟩
      = lex_loop body fuel .LEX_TEXT rest ⟨[], toks ++ [.end_tag tmp]⟩ := by
  have h : ('>' : Char) ≠ NUL := by decide
  have h3 : tmp.length ≠ 0 := by
    intro e; exact h0 (List.length_eq_zero.mp e)
  have h4 : ¬ TMP_CAP ≤ tmp.length := by omega
  have h5 : ¬ TOKS_CAP ≤ toks.length := by omega
  simp only [lex_loop, h, if_false, emit_token, h3, h4, h5, if_true, mk_token]

/-- C4 (amended): for every non-empty tag name `n` without NUL, white space or
`>` and not starting with `/`, and every non-empty text `t` without NUL or
`<`, both of at most 1023 characters, `lex` on `<n>t</n>` runs to the end of
the input and yields exactly the three tokens `StartTag(n, [])`, `Text(t)`,
`EndTag(n)` in that order. -/
theorem lex_simple_element (n t : List Char)
    (hn : n ≠ []) (hn1 : ∀ c ∈ n, c ≠ NUL ∧ c ≠ '>' ∧ isspace c = false)
    (hslash : n.head? ≠ some '/')
    (ht : t ≠ []) (ht1 : ∀ c ∈ t, c ≠ NUL ∧ c ≠ '<')
    (hnl : n.length < TMP_CAP) (htl : t.length < TMP_CAP) :
    lex ('<' :: n ++ '>' :: t ++ '<' :: '/' :: n ++ ['>']) init_lexer
      = (⟨[], [.start_tag n [], .text t, .end_tag n]⟩, .done) := by
  obtain ⟨c, n', rfl⟩ := List.exists_cons_of_ne_nil hn
  obtain ⟨hc0, -, -⟩ := hn1 c (List.mem_cons_self _ _)
  have hc1 : c ≠ '/' := by
    intro e; apply hslash; simp [e]
  have hn' : ∀ a ∈ n', a ≠ NUL ∧ a ≠ '>' ∧ isspace a = false :=
    fun a ha => hn1 a (List.mem_cons_of_mem _ ha)
  have hend : ∀ a ∈ c :: n', a ≠ NUL ∧ a ≠ '>' := fun a ha => ⟨(hn1 a ha).1, (hn1 a ha).2.1⟩
  simp only [List.length_cons] at hnl
  have hfuel : (('<' :: (c :: n') ++ '>' :: t ++ '<' :: '/' :: (c :: n') ++ ['>']).length + 2) * (TOKS_CAP + 1)
      = (('<' :: (c :: n') ++ '>' :: t ++ '<' :: '/' :: (c :: n') ++ ['>']).length + 2) * TOKS_CAP + 1
        + 1 + 1 + (c :: n').length + 1 + 1 + t.length + 1 + n'.length + 1 + 1 := by
    simp only [List.length_cons, List.length_append, List.length_nil, TOKS_CAP]
    omega
  have hbody : '<' :: (c :: n') ++ '>' :: t ++ '<' :: '/' :: (c :: n') ++ ['>']
      = '<' :: c :: (n' ++ '>' :: (t ++ '<' :: '/' :: ((c :: n') ++ '>' :: []))) := by
    simp
  unfold lex init_lexer
  rw [hfuel, hbody]
  rw [lex_loop_open_empty, lex_loop_tag_open _ c _ _ _ hc0 hc1 (by simp [TMP_CAP])]
  rw [lex_loop_name_run n' _ hn' _ _ _
    (by simp only [List.nil_append, List.length_singleton]; omega)]
  rw [lex_loop_name_close _ _ _ _ (by simp)
    (by simp only [List.nil_append, List.length_append, List.length_singleton]; omega)
    (by simp [TOKS_CAP])]
  rw [lex_loop_text_run t _ ht1 _ _ _ (by simp only [List.length_nil]; omega)]
  rw [lex_loop_open_text _ _ _ _ (by simpa using ht) (by simpa using htl) (by simp [TOKS_CAP])]
  rw [lex_loop_tag_slash]
  rw [lex_loop_end_run (c :: n') _ hend _ _ _
    (by simp only [List.length_nil, List.length_cons]; omega)]
  rw [lex_loop_end_close _ _ _ _ (by simp)
    (by simp only [List.nil_append, List.length_cons]; omega) (by simp [TOKS_CAP])]
  rw [lex_loop_nil]
  simp

/-- C4 at `<p>hi</p>`. -/
theorem lex_simple_element_witness :
    "p".toList ≠ [] ∧ "hi".toList ≠ [] ∧
    lex "<p>hi</p>".toList init_lexer
      = (⟨[], [.start_tag "p".toList [], .text "hi".toList, .end_tag "p".toList]⟩, .done) :=
  ⟨by decide, by decide,
   lex_simple_element "p".toList "hi".toList (by decide) (by decide) (by decide) (by decide)
    (by decide) (by decide) (by decide)⟩

/-- A tag name that fills the scratch buffer: the terminator written by
`emit_token` falls behind the end of `lexer->tmp`. -/
theorem lex_name_overflow (c : Char) (n rest : List Char)
    (hc0 : c ≠ NUL) (hc1 : c ≠ '/')
    (hn : ∀ a ∈ n, a ≠ NUL ∧ a ≠ '>' ∧ isspace a = false) (hlen : n.length + 1 = TMP_CAP) :
    lex ('<' :: c :: n ++ '>' :: rest) init_lexer = (⟨c :: n, []⟩, .tmp_overflow) := by
  have hfuel : (('<' :: c :: n ++ '>' :: rest).length + 2) * (TOKS_CAP + 1)
      = (('<' :: c :: n ++ '>' :: rest).length + 2) * TOKS_CAP + 1
        + rest.length + 1 + 1 + n.length + 1 + 1 := by
    simp only [List.length_cons, List.length_append, TOKS_CAP]
    omega
  have hbody : '<' :: c :: n ++ '>' :: rest = '<' :: c :: (n ++ '>' :: rest) := by simp
  unfold lex init_lexer
  rw [hfuel, hbody, lex_loop_open_empty, lex_loop_tag_open _ c _ _ _ hc0 hc1 (by simp [TMP_CAP])]
  rw [lex_loop_name_run n _ hn _ _ _
    (by simp only [List.nil_append, List.length_singleton]; omega)]
  have h : ('>' : Char) ≠ NUL := by decide
  have h3 : ([] ++ [c] ++ n).length ≠ 0 := by simp
  have h4 : TMP_CAP ≤ ([] ++ [c] ++ n).length := by
    simp only [List.nil_append, List.length_append, List.length_singleton]; omega
  simp only [lex_loop, h, if_false, emit_token, h3, h4, if_true, true_or]
  simp

/-- A text that fills the scratch buffer: the terminator written by
`emit_token` falls behind the end of `lexer->tmp`. -/
theorem lex_text_overflow (t rest : List Char) (ht : ∀ c ∈ t, c ≠ NUL ∧ c ≠ '<')
    (hlen : t.length = TMP_CAP) :
    lex ('<' :: 'p' :: '>' :: (t ++ '<' :: rest)) init_lexer
      = (⟨t, [.start_tag ['p'] []]⟩, .tmp_overflow) := by
  have hfuel : (('<' :: 'p' :: '>' :: (t ++ '<' :: rest)).length + 2) * (TOKS_CAP + 1)
      = (('<' :: 'p' :: '>' :: (t ++ '<' :: rest)).length + 2) * TOKS_CAP + 1
        + rest.length + 1 + 1 + t.length + 1 + 1 + 1 := by
    simp only [List.length_cons, List.length_append, TOKS_CAP]
    omega
  unfold lex init_lexer
  rw [hfuel, lex_loop_open_empty,
    lex_loop_tag_open _ 'p' _ _ _ (by decide) (by decide) (by simp [TMP_CAP]),
    lex_loop_name_close _ _ _ _ (by simp) (by simp [TMP_CAP]) (by simp [TOKS_CAP]),
    lex_loop_text_run t _ ht _ _ _ (by simp only [List.length_nil]; omega)]
  have h : ('<' : Char) ≠ NUL := by decide
  have h3 : ([] ++ t).length ≠ 0 := by
    simp only [List.nil_append, hlen, TMP_CAP]; decide
  have h4 : TMP_CAP ≤ ([] ++ t).length := by
    simp only [List.nil_append]; omega
  simp only [lex_loop, h, if_false, emit_token, h3, h4, if_true]
  simp

/-- C4 fails as stated: with a tag name of 1024 characters, and likewise with
a text of 1024 characters, `lex` writes behind the end of its 1024-byte
scratch buffer; and with the empty tag name the `>` that follows `<` is taken
as the first character of a name, so that `<>t</>` yields the single token
`StartTag(">t</")`. -/
theorem lex_long_name_overflows :
    lex ('<' :: List.replicate 1024 'a' ++ '>' :: 't' :: '<' :: '/' :: List.replicate 1024 'a'
        ++ ['>']) init_lexer
      = (⟨List.replicate 1024 'a', []⟩, .tmp_overflow) ∧
    lex ('<' :: 'p' :: '>' :: (List.replicate 1024 'x' ++ '<' :: '/' :: 'p' :: ['>']))
        init_lexer
      = (⟨List.replicate 1024 'x', [.start_tag ['p'] []]⟩, .tmp_overflow) ∧
    lex "<>t</>".toList init_lexer = (⟨[], [.start_tag ">t</".toList []]⟩, .done) := by
  refine ⟨?_, ?_, by decide⟩
  · have hrep : List.replicate 1024 'a' = 'a' :: List.replicate 1023 'a' :=
      List.replicate_succ 'a' 1023
    rw [hrep]
    have hbody : '<' :: ('a' :: List.replicate 1023 'a') ++ '>' :: 't' :: '<' :: '/' ::
        ('a' :: List.replicate 1023 'a') ++ ['>']
        = '<' :: 'a' :: List.replicate 1023 'a' ++ '>' :: ('t' :: '<' :: '/' ::
        ('a' :: List.replicate 1023 'a') ++ ['>']) := by
      simp only [List.cons_append, List.append_assoc]
    rw [hbody]
    apply lex_name_overflow
    · decide
    · decide
    · intro a ha
      rw [List.eq_of_mem_replicate ha]
      decide
    · rw [List.length_replicate]
      rfl
  · apply lex_text_overflow
    · intro a ha
      rw [List.eq_of_mem_replicate ha]
      decide
    · rw [List.length_replicate]
      rfl

/-- White space in state `LEX_TAG_NAME`. -/
theorem lex_loop_name_space {body : List Char} (fuel : Nat) (rest : List Char) (lexer : lexer_t) :
    lex_loop body (fuel + 1) .LEX_TAG_NAME (' ' :: rest) lexer
      = lex_loop body fuel .LEX_ATTRS rest lexer := by
  have h : (' ' : Char) ≠ NUL := by decide
  have h1 : (' ' : Char) ≠ '>' := by decide
  have h2 : isspace ' ' = true := by decide
  simp only [lex_loop, h, h1, h2, if_false, or_true, if_true]

/-- C5 at its own example `<a href="http://x.com" target=_blank>`: the value
loop stores the character before it tests it for white space, so the space
that ends the first value is part of the captured value. -/
theorem lex_two_attrs_trailing_space :
    lex "<a href=\"http://x.com\" target=_blank>".toList init_lexer
      = (⟨[], [.start_tag "a".toList
          [(⟨"href".toList, true⟩, ⟨"http://x.com ".toList, true⟩),
           (⟨"target".toList, true⟩, ⟨"_blank".toList, true⟩)]]⟩, .done) := by
  decide

/-- C7 at the failing input `<a href=x`: `get_attrs` stops at the terminating
NUL as it does at `>`, `lex` emits the `StartTag` of the unterminated tag and
its `i++` then steps behind the terminator. -/
theorem lex_unterminated_attrs :
    lex "<a href=x".toList init_lexer
      = (⟨[], [.start_tag "a".toList [(⟨"href".toList, true⟩, ⟨"x".toList, true⟩)]]⟩,
          .oob_read) := by
  decide

/-! ## The steps provided are enough in a body shorter than `2 ^ 32` bytes -/

theorem skip_space_sfx_length (s : List Char) : (skip_space_sfx s).length ≤ s.length := by
  induction s with
  | nil => simp [skip_space_sfx]
  | cons c r ih =>
    rw [skip_space_sfx]
    split
    · simp only [List.length_cons]; omega
    · exact Nat.le_refl _

theorem scan_key_sfx_length (s : List Char) :
    ∀ key : List Char, (scan_key_sfx s key).1.length ≤ s.length := by
  induction s with
  | nil => intro key; simp [scan_key_sfx]
  | cons c r ih =>
    intro key
    rw [scan_key_sfx]
    split
    · have := ih (attr_put key c)
      simp only [List.length_cons]; omega
    · exact Nat.le_refl _

theorem scan_val_sfx_length (s : List Char) :
    ∀ (instr : Bool) (val : List Char), (scan_val_sfx s instr val).1.length ≤ s.length := by
  induction s with
  | nil => intro instr val; simp [scan_val_sfx]
  | cons c r ih =>
    intro instr val
    rw [scan_val_sfx]
    split
    · exact Nat.le_refl _
    · split
      · have := ih (!instr) val
        simp only [List.length_cons]; omega
      · split
        · exact Nat.le_refl _
        · have := ih instr (attr_put val c)
          simp only [List.length_cons]; omega

/-- Every round of the outer loop of `get_attrs` moves forward by at least
one character. -/
theorem get_attrs_round_lt (s : List Char) (h : ¬ (cur s = NUL ∨ cur s = '>')) :
    (skip_space_sfx (scan_key_sfx (skip_space_sfx s) []).1).length ≤ s.length ∧
    (cur (skip_space_sfx (scan_key_sfx (skip_space_sfx s) []).1) ≠ '=' →
      (skip_space_sfx (scan_key_sfx (skip_space_sfx s) []).1).length < s.length) := by
  have h1 := skip_space_sfx_length s
  have h2 := scan_key_sfx_length (skip_space_sfx s) []
  have h3 := skip_space_sfx_length (scan_key_sfx (skip_space_sfx s) []).1
  refine ⟨by omega, ?_⟩
  intro hne
  cases s with
  | nil => exact absurd (Or.inl rfl) h
  | cons c r =>
    have hc : c ≠ NUL ∧ c ≠ '>' := by
      constructor
      · intro e; exact h (Or.inl e)
      · intro e; exact h (Or.inr e)
    by_cases hsp : isspace c = true
    · have : (skip_space_sfx (c :: r)).length ≤ r.length := by
        rw [skip_space_sfx, if_pos ⟨hc.1, hsp⟩]
        exact skip_space_sfx_length r
      simp only [List.length_cons]
      omega
    · have hsp' : isspace c = false := by simpa using hsp
      have hs1 : skip_space_sfx (c :: r) = c :: r := by
        rw [skip_space_sfx, if_neg (by simp [hsp'])]
      by_cases he : c = '='
      · exfalso
        apply hne
        rw [hs1, scan_key_sfx, if_neg (by simp [he]), skip_space_sfx, if_neg (by simp [hsp'])]
        exact he
      · have : (scan_key_sfx (c :: r) []).1.length ≤ r.length := by
          rw [scan_key_sfx, if_pos ⟨hc.1, he, hsp', hc.2⟩]
          exact scan_key_sfx_length r _
        rw [hs1] at h3 ⊢
        simp only [List.length_cons]
        omega

/-- The outer loop of `get_attrs` returns within as many rounds as
characters are left, and it does not move backwards. -/
theorem get_attrs_loop_sfx_returns :
    ∀ (fuel : Nat) (s : List Char) (acc : List (attr_str × attr_str)), s.length < fuel →
      ∃ (rest : List Char) (attrs : List (attr_str × attr_str)),
        get_attrs_loop_sfx fuel s acc = some (rest, attrs) ∧ rest.length ≤ s.length := by
  intro fuel
  induction fuel with
  | zero => intro s acc h; omega
  | succ f ih =>
    intro s acc hf
    rw [get_attrs_loop_sfx]
    by_cases hc : cur s = NUL ∨ cur s = '>'
    · rw [if_pos hc]
      exact ⟨s, acc, rfl, Nat.le_refl _⟩
    · rw [if_neg hc]
      dsimp only
      obtain ⟨hle, hlt⟩ := get_attrs_round_lt s hc
      by_cases he : cur (skip_space_sfx (scan_key_sfx (skip_space_sfx s) []).1) = '='
      · rw [if_pos he]
        have htail : (skip_space_sfx (scan_key_sfx (skip_space_sfx s) []).1).tail.length
            < s.length := by
          cases hr : skip_space_sfx (scan_key_sfx (skip_space_sfx s) []).1 with
          | nil => rw [hr] at he; exact absurd he (by decide)
          | cons x t =>
            rw [hr] at hle
            simp only [List.length_cons] at hle
            simp only [List.tail_cons]
            omega
        have h4 := skip_space_sfx_length
          (skip_space_sfx (scan_key_sfx (skip_space_sfx s) []).1).tail
        have h5 := scan_val_sfx_length
          (skip_space_sfx (skip_space_sfx (scan_key_sfx (skip_space_sfx s) []).1).tail) false []
        obtain ⟨rest, attrs, hres, hrl⟩ := ih _
          (acc ++ [(attr_end (scan_key_sfx (skip_space_sfx s) []).2,
            attr_end (scan_val_sfx (skip_space_sfx
              (skip_space_sfx (scan_key_sfx (skip_space_sfx s) []).1).tail) false []).2)])
          (show (scan_val_sfx (skip_space_sfx
              (skip_space_sfx (scan_key_sfx (skip_space_sfx s) []).1).tail) false []).1.length < f
            by omega)
        exact ⟨rest, attrs, hres, by omega⟩
      · rw [if_neg he]
        have := hlt he
        obtain ⟨rest, attrs, hres, hrl⟩ := ih _
          (acc ++ [(attr_end (scan_key_sfx (skip_space_sfx s) []).2, ⟨[], true⟩)])
          (show (skip_space_sfx (scan_key_sfx (skip_space_sfx s) []).1).length < f by omega)
        exact ⟨rest, attrs, hres, by omega⟩

theorem emit_token_status (lexer : lexer_t) (type : token_type_t) (e : lex_status)
    (h : emit_token lexer type = .error e) : e ≠ .out_of_fuel := by
  unfold emit_token at h
  split at h
  · cases h
  · split at h
    · cases h; decide
    · split at h
      · cases h; decide
      · cases h

theorem append_to_buffer_status (lexer : lexer_t) (c : Char) (e : lex_status)
    (h : append_to_buffer lexer c = .error e) : e ≠ .out_of_fuel := by
  unfold append_to_buffer at h
  split at h
  · cases h; decide
  · cases h

/-- In a body shorter than `2 ^ 32` bytes the main loop never uses up its
steps when it has more of them than characters are left. -/
theorem lex_loop_fuel (body : List Char) (hlen : body.length < UINT32_RANGE) :
    ∀ (fuel : Nat) (state : lexer_state_t) (s pre : List Char) (lexer : lexer_t),
      body = pre ++ s → s.length < fuel →
      (lex_loop body fuel state s lexer).2 ≠ .out_of_fuel := by
  intro fuel
  induction fuel with
  | zero => intro state s pre lexer _ h; omega
  | succ f ih =>
    intro state s pre lexer hb hf
    cases s with
    | nil => simp [lex_loop]
    | cons c rest =>
      simp only [List.length_cons] at hf
      have hrec : ∀ (st : lexer_state_t) (lx : lexer_t),
          (lex_loop body f st rest lx).2 ≠ .out_of_fuel :=
        fun st lx => ih st rest (pre ++ [c]) lx (by rw [hb]; simp) (by omega)
      by_cases h0 : c = NUL
      · simp [lex_loop, h0]
      · cases state with
        | LEX_TEXT =>
          simp only [lex_loop, h0, if_false]
          split
          · split
            · exact hrec _ _
            · rename_i e he; exact emit_token_status _ _ e he
          · split
            · exact hrec _ _
            · rename_i e he; exact append_to_buffer_status _ _ e he
        | LEX_TAG_OPEN =>
          simp only [lex_loop, h0, if_false]
          split
          · exact hrec _ _
          · split
            · exact hrec _ _
            · rename_i e he; exact append_to_buffer_status _ _ e he
        | LEX_TAG_NAME =>
          simp only [lex_loop, h0, if_false]
          split
          · split
            · split
              · exact hrec _ _
              · rename_i e he; exact emit_token_status _ _ e he
            · exact hrec _ _
          · split
            · exact hrec _ _
            · rename_i e he; exact append_to_buffer_status _ _ e he
        | LEX_TAG_END =>
          simp only [lex_loop, h0, if_false]
          split
          · split
            · exact hrec _ _
            · rename_i e he; exact emit_token_status _ _ e he
          · split
            · exact hrec _ _
            · rename_i e he; exact append_to_buffer_status _ _ e he
        | LEX_ATTRS =>
          obtain ⟨after, attrs, hg, hal⟩ := get_attrs_loop_sfx_returns ((c :: rest).length + 1)
            (c :: rest) [] (by omega)
          obtain ⟨pre', hb', hga⟩ := get_attrs_sfx_spec body hlen (c :: rest) pre after attrs
            hb hg
          have hoff : (body.length - (rest.length + 1)) % UINT32_RANGE = pre.length := by
            have hl : body.length = pre.length + (rest.length + 1) := by
              rw [hb, List.length_append, List.length_cons]
            rw [hl, Nat.add_sub_cancel]
            apply Nat.mod_eq_of_lt
            omega
          have hga' : get_attrs c pre.length body = some (pre'.length, attrs) := hga
          have hdrop : body.drop (pre'.length + 1) = after.tail := by
            rw [hb']
            cases after <;> simp
          have hch : char_at body pre'.length = cur after := by
            rw [hb', char_at_append]
          simp only [lex_loop, h0, if_false, hoff, hga', hdrop, hch]
          split
          · exact fun h => lex_status.noConfusion h
          · split
            · exact fun h => lex_status.noConfusion h
            · split
              · exact fun h => lex_status.noConfusion h
              · split
                · exact fun h => lex_status.noConfusion h
                · cases after with
                  | nil =>
                    rename_i hcur
                    exact absurd rfl hcur
                  | cons x next =>
                    simp only [List.length_cons] at hal
                    exact ih _ next (pre' ++ [x]) _ (by rw [hb']; simp)
                      (by omega)

/-- Function `lex` on a body shorter than `2 ^ 32` bytes never uses up the
steps of the embedding: it ends in one of the ways the C function ends. -/
theorem lex_returns (body : List Char) (lexer : lexer_t) (hlen : body.length < UINT32_RANGE) :
    (lex body lexer).2 ≠ .out_of_fuel := by
  unfold lex
  apply lex_loop_fuel body hlen _ _ body [] lexer rfl
  unfold TOKS_CAP
  have : body.length + 2 ≤ (body.length + 2) * (1024 + 1) := Nat.le_mul_of_pos_right _ (by omega)
  omega

/-! ## Tree builder: proofs -/

theorem heap_update_length (heap : List node_t) (k : Nat) (f : node_t → node_t) :
    (heap_update heap k f).length = heap.length := by
  induction heap generalizing k with
  | nil => rfl
  | cons n rest ih =>
    cases k with
    | zero => rfl
    | succ k => simp [heap_update, ih]

theorem heap_update_getElem? (heap : List node_t) (k j : Nat) (f : node_t → node_t) :
    (heap_update heap k f)[j]? = if j = k then heap[j]?.map f else heap[j]? := by
  induction heap generalizing k j with
  | nil => simp [heap_update]
  | cons n rest ih =>
    cases k with
    | zero =>
      cases j with
      | zero => simp [heap_update]
      | succ j => simp [heap_update]
    | succ k =>
      cases j with
      | zero => simp [heap_update]
      | succ j => simp [heap_update, ih]

theorem heap_update_map {β : Type} (heap : List node_t) (k : Nat) (f : node_t → node_t)
    (g : node_t → β) (h : ∀ n, g (f n) = g n) :
    (heap_update heap k f).map g = heap.map g := by
  induction heap generalizing k with
  | nil => rfl
  | cons n rest ih =>
    cases k with
    | zero => simp [heap_update, h]
    | succ k => simp [heap_update, ih]

theorem heap_update_append_left (heap : List node_t) (x : node_t) (k : Nat)
    (f : node_t → node_t) (hk : k < heap.length) :
    heap_update (heap ++ [x]) k f = heap_update heap k f ++ [x] := by
  induction heap generalizing k with
  | nil => simp at hk
  | cons n rest ih =>
    cases k with
    | zero => rfl
    | succ k =>
      simp only [List.length_cons, Nat.add_lt_add_iff_right] at hk
      simp [heap_update, ih k hk]

theorem heap_update_append_last (heap : List node_t) (x : node_t) (f : node_t → node_t) :
    heap_update (heap ++ [x]) heap.length f = heap ++ [f x] := by
  induction heap with
  | nil => rfl
  | cons n rest ih => simp [heap_update, ih]

/-- The heap after a `StartTag`: the cursor has one more child, the new node
is the last node of the heap and points back to the cursor. -/
theorem build_step_start_heap (d : dom_t) (name : List Char)
    (attrs : List (attr_str × attr_str)) (hp : d.ptr < d.heap.length) :
    (build_step d (.start_tag name attrs)).heap
      = heap_update d.heap d.ptr (fun n => { n with childs := n.childs ++ [d.heap.length] })
        ++ [{ childs := [], parent := some d.ptr, text := none, tag_name := some name,
              type := tagname_to_node_type name }] := by
  simp only [build_step, node_add_child]
  rw [heap_update_append_left _ _ _ _ hp]
  have h := heap_update_append_last
    (heap_update d.heap d.ptr (fun n => { n with childs := n.childs ++ [d.heap.length] }))
    { create_node (tagname_to_node_type name) with tag_name := some name }
    (fun n => { n with parent := some d.ptr })
  rw [heap_update_length] at h
  exact h

theorem tagname_not_root (name : List Char) : tagname_to_node_type name ≠ .NODE_ROOT := by
  unfold tagname_to_node_type
  split_ifs <;> simp

theorem dom_ok_init : dom_ok dom_init := by
  refine ⟨by simp [dom_init], ?_⟩
  intro k n h
  cases k with
  | zero =>
    simp [dom_init] at h
    subst h
    exact Or.inl ⟨rfl, rfl, rfl⟩
  | succ k => simp [dom_init] at h

/-- Every step of the token loop keeps the state well-formed. -/
theorem dom_ok_step (d : dom_t) (t : token_t) (h : dom_ok d) : dom_ok (build_step d t) := by
  obtain ⟨hp, hn⟩ := h
  cases t with
  | text s =>
    refine ⟨by simpa [build_step, heap_update_length] using hp, ?_⟩
    intro k n hk
    simp only [build_step, heap_update_getElem?] at hk
    split_ifs at hk with hkp
    · obtain ⟨m, hm, rfl⟩ := Option.map_eq_some'.mp hk
      exact hn k m hm
    · exact hn k n hk
  | start_tag name attrs =>
    refine ⟨?_, ?_⟩
    · rw [build_step_start_heap d name attrs hp]
      simp [build_step, heap_update_length]
    · intro k n hk
      rw [build_step_start_heap d name attrs hp] at hk
      by_cases hlt : k < d.heap.length
      · rw [List.getElem?_append_left (by rw [heap_update_length]; exact hlt),
          heap_update_getElem?] at hk
        split_ifs at hk with hkp
        · obtain ⟨m, hm, rfl⟩ := Option.map_eq_some'.mp hk
          exact hn k m hm
        · exact hn k n hk
      · have hlen : (heap_update d.heap d.ptr
            (fun n => { n with childs := n.childs ++ [d.heap.length] })).length ≤ k := by
          rw [heap_update_length]; omega
        rw [List.getElem?_append_right hlen, heap_update_length] at hk
        have hk0 : k - d.heap.length = 0 := by
          by_contra hne
          rw [List.getElem?_eq_none (by simp; omega)] at hk
          exact Option.noConfusion hk
        rw [hk0] at hk
        simp only [List.getElem?_cons_zero, Option.some.injEq] at hk
        subst hk
        exact Or.inr ⟨d.ptr, rfl, by omega, tagname_not_root name⟩
  | end_tag name =>
    refine ⟨?_, hn⟩
    simp only [build_step, dom_pop]
    cases hg : d.heap[d.ptr]? with
    | none => simpa using hp
    | some m =>
      rcases hn d.ptr m hg with ⟨-, hpar, -⟩ | ⟨p, hpar, hlt, -⟩
      · simpa [hpar] using hp
      · simp only [hpar]
        omega
  | eof => exact ⟨hp, hn⟩

theorem dom_ok_foldl (toks : List token_t) (d : dom_t) (h : dom_ok d) :
    dom_ok (toks.foldl build_step d) := by
  induction toks generalizing d with
  | nil => exact h
  | cons t ts ih => exact ih _ (dom_ok_step d t h)

theorem dom_ok_build (toks : List token_t) : dom_ok (build_tree toks) :=
  dom_ok_foldl toks dom_init dom_ok_init

/-- C8: in every state the token loop reaches, an `EndTag` token of any name
changes no node of the heap; the cursor is a node that is `Root` or has a
parent, the step moves the cursor to its parent when it has one and leaves it
where it is when it is `Root`.  The tokens `StartTag("div")`, `EndTag("span")`
give a `Root` with the single child `Div`, which has no children, and the
cursor back at `Root`. -/
theorem end_tag_pops :
    (∀ (toks : List token_t) (name : List Char),
      (build_step (build_tree toks) (.end_tag name)).heap = (build_tree toks).heap ∧
      ∃ n, (build_tree toks).heap[(build_tree toks).ptr]? = some n ∧
        (n.type = .NODE_ROOT ∨ ∃ p, n.parent = some p) ∧
        (∀ p, n.parent = some p → (build_step (build_tree toks) (.end_tag name)).ptr = p) ∧
        (n.type = .NODE_ROOT →
          (build_step (build_tree toks) (.end_tag name)).ptr = (build_tree toks).ptr)) ∧
    build_tree [.start_tag "div".toList [], .end_tag "span".toList]
      = ⟨[{ childs := [1], parent := none, text := none, tag_name := none,
            type := .NODE_ROOT },
          { childs := [], parent := some 0, text := none, tag_name := some "div".toList,
            type := .NODE_DIV }], 0⟩ := by
  refine ⟨?_, by decide⟩
  intro toks name
  obtain ⟨hp, hn⟩ := dom_ok_build toks
  refine ⟨rfl, ?_⟩
  obtain ⟨n, hg⟩ : ∃ n, (build_tree toks).heap[(build_tree toks).ptr]? = some n :=
    ⟨_, List.getElem?_eq_getElem hp⟩
  refine ⟨n, hg, ?_, ?_, ?_⟩
  · rcases hn _ n hg with ⟨-, -, ht⟩ | ⟨p, hpar, -, -⟩
    · exact Or.inl ht
    · exact Or.inr ⟨p, hpar⟩
  · intro p hpar
    simp [build_step, dom_pop, hg, hpar]
  · intro ht
    rcases hn _ n hg with ⟨-, hpar, -⟩ | ⟨p, -, -, hnt⟩
    · simp [build_step, dom_pop, hg, hpar]
    · exact absurd ht hnt

/-! ### Text of a node -/

theorem node_text_step (d : dom_t) (t : token_t) (k : Nat) (h : dom_ok d) :
    node_text (build_step d t) k
      = match t with
        | .text s => if d.ptr = k then some ((node_text d k).getD [] ++ s) else node_text d k
        | _ => node_text d k := by
  obtain ⟨hp, -⟩ := h
  cases t with
  | text s =>
    simp only [node_text, build_step, heap_update_getElem?]
    by_cases hk : d.ptr = k
    · subst hk
      obtain ⟨n, hg⟩ : ∃ n, d.heap[d.ptr]? = some n := ⟨_, List.getElem?_eq_getElem hp⟩
      simp only [if_true, hg, Option.map_some', Option.bind_some]
      cases htx : n.text <;> simp [htx]
    · have hk' : ¬ k = d.ptr := fun e => hk e.symm
      simp only [hk, hk', if_false]
  | start_tag name attrs =>
    simp only [node_text]
    rw [build_step_start_heap d name attrs hp]
    by_cases hlt : k < d.heap.length
    · rw [List.getElem?_append_left (by rw [heap_update_length]; exact hlt),
        heap_update_getElem?]
      split_ifs with hkp
      · cases d.heap[k]? <;> simp
      · rfl
    · have hlen : (heap_update d.heap d.ptr
          (fun n => { n with childs := n.childs ++ [d.heap.length] })).length ≤ k := by
        rw [heap_update_length]; omega
      rw [List.getElem?_append_right hlen, heap_update_length,
        List.getElem?_eq_none (show d.heap.length ≤ k by omega)]
      by_cases hk0 : k - d.heap.length = 0
      · rw [hk0]; rfl
      · rw [List.getElem?_eq_none (by simp; omega)]
  | end_tag name => rfl
  | eof => rfl

/-- Text of a node after a run of the token loop: its text before the run,
followed by the texts that arrived while it was the cursor. -/
theorem node_text_foldl (toks : List token_t) (k : Nat) :
    ∀ d : dom_t, dom_ok d →
      node_text (toks.foldl build_step d) k
        = if texts_from d toks k = [] then node_text d k
          else some ((node_text d k).getD [] ++ (texts_from d toks k).flatten) := by
  induction toks with
  | nil => intro d _; simp [texts_from]
  | cons t ts ih =>
    intro d hd
    rw [List.foldl_cons, ih _ (dom_ok_step d t hd), node_text_step d t k hd]
    cases t with
    | text s =>
      by_cases hk : d.ptr = k
      · simp only [texts_from, hk, if_true, List.singleton_append, List.cons_ne_nil, if_false,
          Option.getD_some, List.flatten_cons, List.append_assoc]
        split_ifs with he
        · simp [he]
        · rfl
      · simp only [texts_from, hk, if_false, List.nil_append]
    | start_tag name attrs => simp only [texts_from, List.nil_append]
    | end_tag name => simp only [texts_from, List.nil_append]
    | eof => simp only [texts_from, List.nil_append]

/-- C9: text tokens attach to the node that is the cursor when they arrive,
concatenated in arrival order with no separator.  For every token sequence
the text of a node is absent when no `Text` token was processed while the
node was the cursor, and otherwise is the concatenation, in order, of the
contents of exactly those tokens.  Lexing `<div>a<p>b</p>c</div>` and building
the tree gives a `Root` without text whose one child `Div` has the text `ac`
and the one child `P`, with the text `b`. -/
theorem text_attaches_to_cursor :
    (∀ (toks : List token_t) (k : Nat),
      node_text (build_tree toks) k
        = if texts_from dom_init toks k = [] then none
          else some (texts_from dom_init toks k).flatten) ∧
    (lex "<div>a<p>b</p>c</div>".toList init_lexer).2 = .done ∧
    build_tree (lex "<div>a<p>b</p>c</div>".toList init_lexer).1.toks
      = ⟨[{ childs := [1], parent := none, text := none, tag_name := none,
            type := .NODE_ROOT },
          { childs := [2], parent := some 0, text := some "ac".toList,
            tag_name := some "div".toList, type := .NODE_DIV },
          { childs := [], parent := some 1, text := some "b".toList,
            tag_name := some "p".toList, type := .NODE_P }], 0⟩ := by
  refine ⟨?_, by decide, by decide⟩
  intro toks k
  have h := node_text_foldl toks k dom_init dom_ok_init
  have h0 : node_text dom_init k = none := by
    cases k with
    | zero => rfl
    | succ k => simp [node_text, dom_init]
  rw [h0] at h
  simpa [build_tree] using h

/-! ### Depth and order of children -/

theorem depths_of_append (ps : List (Option Nat)) (x : Option Nat) :
    depths_of (ps ++ [x])
      = depths_of ps ++ [match x with
                         | none => 0
                         | some q => (depths_of ps).getD q 0 + 1] := by
  simp [depths_of, List.foldl_append]

theorem depths_of_length (ps : List (Option Nat)) : (depths_of ps).length = ps.length := by
  induction ps using List.reverseRecOn with
  | nil => rfl
  | append_singleton ps x ih => rw [depths_of_append]; simp [ih]

/-- The depth list satisfies the defining equations of depth when parents
precede children. -/
theorem depths_of_spec (ps : List (Option Nat))
    (hord : ∀ k p : Nat, ps[k]? = some (some p) → p < k) :
    ∀ (k : Nat) (x : Option Nat), ps[k]? = some x →
      (depths_of ps).getD k 0 = match x with
                                | none => 0
                                | some p => (depths_of ps).getD p 0 + 1 := by
  induction ps using List.reverseRecOn with
  | nil => intro k x h; simp at h
  | append_singleton ps y ih =>
    intro k x h
    have hord' : ∀ k p : Nat, ps[k]? = some (some p) → p < k := by
      intro j p hj
      have hjl : j < ps.length := by
        by_contra hge
        rw [List.getElem?_eq_none (show ps.length ≤ j by omega)] at hj
        exact Option.noConfusion hj
      apply hord j p
      rw [List.getElem?_append_left hjl]
      exact hj
    rw [depths_of_append]
    by_cases hlt : k < ps.length
    · rw [List.getElem?_append_left hlt] at h
      have hk := ih hord' k x h
      rw [List.getD_append _ _ _ _ (by rw [depths_of_length]; exact hlt), hk]
      cases x with
      | none => rfl
      | some p =>
        have hp : p < k := hord' k p h
        simp only
        rw [List.getD_append _ _ _ _ (by rw [depths_of_length]; omega)]
    · have hk0 : k = ps.length := by
        by_contra hne
        rw [List.getElem?_eq_none (by simp; omega)] at h
        exact Option.noConfusion h
      subst hk0
      simp only [List.getElem?_concat_length, Option.some.injEq] at h
      subst h
      rw [List.getD_append_right _ _ _ _ (by rw [depths_of_length]), depths_of_length,
        Nat.sub_self]
      cases y with
      | none => rfl
      | some p =>
        have hp : p < ps.length := hord ps.length p (by simp)
        simp only [List.getD_cons_zero]
        rw [List.getD_append _ _ _ _ (by rw [depths_of_length]; exact hp)]

theorem dom_ok_parent_order (d : dom_t) (h : dom_ok d) :
    ∀ k p : Nat, (d.heap.map (fun n => n.parent))[k]? = some (some p) → p < k := by
  intro k p hk
  rw [List.getElem?_map] at hk
  obtain ⟨n, hn, hpar⟩ := Option.map_eq_some'.mp hk
  rcases h.2 k n hn with ⟨-, hnone, -⟩ | ⟨q, hq, hlt, -⟩
  · rw [hnone] at hpar; exact Option.noConfusion hpar
  · rw [hq] at hpar
    cases hpar
    exact hlt

/-- Parent pointers after a step: a `StartTag` adds the cursor as the parent
of the new node, no other token changes a parent. -/
theorem build_step_parents (d : dom_t) (t : token_t) (h : dom_ok d) :
    (build_step d t).heap.map (fun n => n.parent)
      = match t with
        | .start_tag _ _ => d.heap.map (fun n => n.parent) ++ [some d.ptr]
        | _ => d.heap.map (fun n => n.parent) := by
  cases t with
  | text s => exact heap_update_map _ _ _ _ (fun _ => rfl)
  | start_tag name attrs =>
    have hm : (heap_update d.heap d.ptr
        (fun n => { n with childs := n.childs ++ [d.heap.length] })).map (fun n => n.parent)
        = d.heap.map (fun n => n.parent) := heap_update_map _ _ _ _ (fun _ => rfl)
    rw [build_step_start_heap d name attrs h.1, List.map_append, hm]
    rfl
  | end_tag name => rfl
  | eof => rfl

theorem foldl_max_append (l : List Nat) (x a : Nat) :
    (l ++ [x]).foldl max a = max (l.foldl max a) x := by
  simp [List.foldl_append]

/-- Depth of the cursor and maximum depth follow a counter that goes up at a
`StartTag` and down, but not below zero, at an `EndTag`. -/
theorem depth_foldl (toks : List token_t) :
    ∀ (d : dom_t) (c m : Nat), dom_ok d → (node_depths d).getD d.ptr 0 = c → max_depth d = m →
      max_depth (toks.foldl build_step d)
        = (toks.foldl (fun (s : Nat × Nat) t =>
            if is_start t = true then (s.1 + 1, max s.2 (s.1 + 1))
            else if is_end t = true then (s.1 - 1, s.2) else s) (c, m)).2 := by
  induction toks with
  | nil => intro d c m _ _ hm; exact hm
  | cons t ts ih =>
    intro d c m hd hc hm
    rw [List.foldl_cons, List.foldl_cons]
    have hpar := build_step_parents d t hd
    have hd' := dom_ok_step d t hd
    cases t with
    | text s =>
      apply ih _ _ _ hd'
      · simp only [node_depths, hpar]; exact hc
      · simp only [max_depth, node_depths, hpar]; exact hm
    | eof =>
      apply ih _ _ _ hd'
      · exact hc
      · exact hm
    | start_tag name attrs =>
      simp only at hpar
      have hD : node_depths (build_step d (.start_tag name attrs))
          = node_depths d ++ [c + 1] := by
        simp only [node_depths, hpar, depths_of_append]
        simp only [node_depths] at hc
        rw [hc]
      apply ih _ _ _ hd'
      · rw [hD]
        have hptr : (build_step d (.start_tag name attrs)).ptr = (node_depths d).length := by
          simp [build_step, node_depths, depths_of_length]
        rw [hptr, List.getD_append_right _ _ _ _ (Nat.le_refl _), Nat.sub_self]
        rfl
      · simp only [max_depth, hD, foldl_max_append]
        simp only [max_depth] at hm
        rw [hm]
    | end_tag name =>
      simp only at hpar
      apply ih _ _ _ hd'
      · have hspec := depths_of_spec _ (dom_ok_parent_order d hd)
        obtain ⟨n, hn⟩ : ∃ n, d.heap[d.ptr]? = some n := ⟨_, List.getElem?_eq_getElem hd.1⟩
        have hx := hspec d.ptr n.parent (by rw [List.getElem?_map, hn]; rfl)
        simp only [node_depths] at hc ⊢
        simp only [hpar, build_step, dom_pop, hn]
        rw [hc] at hx
        cases hpn : n.parent with
        | none =>
          rw [hpn] at hx
          simp only at hx ⊢
          rw [hc, hx]
        | some p =>
          rw [hpn] at hx
          simp only at hx ⊢
          show _ = c - 1
          omega
      · simp only [max_depth, node_depths, hpar]
        exact hm

/-- In a properly nested sequence no prefix closes more tags than are open. -/
theorem nested_prefix (toks : List token_t) :
    ∀ (stack : List (List Char)) (i : Nat), nested_from stack toks = true →
      (toks.take i).countP is_end ≤ stack.length + (toks.take i).countP is_start := by
  induction toks with
  | nil => intro stack i _; simp
  | cons t ts ih =>
    intro stack i h
    cases i with
    | zero => simp
    | succ i =>
      rw [List.take_succ_cons, List.countP_cons, List.countP_cons]
      cases t with
      | start_tag name attrs =>
        have := ih (name :: stack) i (by simpa [nested_from] using h)
        simp only [List.length_cons] at this
        simp only [is_start, is_end, if_true, Bool.false_eq_true, if_false]
        omega
      | end_tag name =>
        cases stack with
        | nil => simp [nested_from] at h
        | cons top stack =>
          have := ih stack i (by
            simp only [nested_from, Bool.and_eq_true] at h
            exact h.2)
          simp only [List.length_cons, is_start, is_end, if_true, Bool.false_eq_true, if_false]
          omega
      | text s =>
        have := ih stack i (by simpa [nested_from] using h)
        simp only [is_start, is_end, Bool.false_eq_true, if_false]
        omega
      | eof =>
        have := ih stack i (by simpa [nested_from] using h)
        simp only [is_start, is_end, Bool.false_eq_true, if_false]
        omega

theorem foldr_max_range_ge (g : Nat → Nat) (n : Nat) :
    g 0 ≤ ((List.range (n + 1)).map g).foldr max 0 := by
  rw [List.range_succ_eq_map]
  simp only [List.map_cons, List.foldr_cons]
  exact Nat.le_max_left _ _

/-- When no prefix closes more tags than are open, the counter of
`depth_foldl` never hits zero from above and its maximum is the largest
number of tags open at a position. -/
theorem counter_max_open (toks : List token_t) :
    ∀ (c m : Nat), c ≤ m →
      (∀ i, (toks.take i).countP is_end ≤ c + (toks.take i).countP is_start) →
      (toks.foldl (fun (s : Nat × Nat) t =>
          if is_start t = true then (s.1 + 1, max s.2 (s.1 + 1))
          else if is_end t = true then (s.1 - 1, s.2) else s) (c, m)).2
        = max m (((List.range (toks.length + 1)).map (fun i =>
            c + (toks.take i).countP is_start - (toks.take i).countP is_end)).foldr max 0) := by
  induction toks with
  | nil =>
    intro c m hcm _
    simp
    omega
  | cons t ts ih =>
    intro c m hcm hpre
    rw [List.foldl_cons, List.length_cons, List.range_succ_eq_map, List.map_cons, List.map_map,
      List.foldr_cons]
    have hpre' := fun i => hpre (i + 1)
    simp only [List.take_succ_cons, List.countP_cons] at hpre'
    by_cases hs : is_start t = true
    · have he : is_end t = false := by cases t <;> simp_all [is_start, is_end]
      simp only [hs, he, if_true, Bool.false_eq_true, if_false, Nat.add_zero] at hpre' ⊢
      rw [ih (c + 1) (max m (c + 1)) (Nat.le_max_right _ _) (fun i => by have := hpre' i; omega)]
      have hfun : ((fun i => c + (List.take i (t :: ts)).countP is_start
            - (List.take i (t :: ts)).countP is_end) ∘ Nat.succ)
          = fun i => c + 1 + (ts.take i).countP is_start - (ts.take i).countP is_end := by
        funext i
        simp only [Function.comp, Nat.succ_eq_add_one, List.take_succ_cons, List.countP_cons, hs,
          he, if_true, Bool.false_eq_true, if_false]
        omega
      rw [hfun]
      have hge := foldr_max_range_ge
        (fun i => c + 1 + (ts.take i).countP is_start - (ts.take i).countP is_end) ts.length
      simp only [List.take_zero, List.countP_nil, Nat.add_zero, Nat.sub_zero] at hge ⊢
      omega
    · by_cases he : is_end t = true
      · simp only [hs, he, if_true, Bool.false_eq_true, if_false, Nat.add_zero] at hpre' ⊢
        have hc1 : 1 ≤ c := by
          have := hpre' 0
          simp at this
          omega
        rw [ih (c - 1) m (by omega) (fun i => by have := hpre' i; omega)]
        have hfun : ((fun i => c + (List.take i (t :: ts)).countP is_start
              - (List.take i (t :: ts)).countP is_end) ∘ Nat.succ)
            = fun i => c - 1 + (ts.take i).countP is_start - (ts.take i).countP is_end := by
          funext i
          simp only [Function.comp, Nat.succ_eq_add_one, List.take_succ_cons, List.countP_cons,
            hs, he, if_true, Bool.false_eq_true, if_false]
          omega
        rw [hfun]
        simp only [List.take_zero, List.countP_nil, Nat.add_zero, Nat.sub_zero]
        omega
      · simp only [hs, he, Bool.false_eq_true, if_false, Nat.add_zero] at hpre' ⊢
        rw [ih c m hcm hpre']
        have hfun : ((fun i => c + (List.take i (t :: ts)).countP is_start
              - (List.take i (t :: ts)).countP is_end) ∘ Nat.succ)
            = fun i => c + (ts.take i).countP is_start - (ts.take i).countP is_end := by
          funext i
          simp only [Function.comp, Nat.succ_eq_add_one, List.take_succ_cons, List.countP_cons,
            hs, he, Bool.false_eq_true, if_false, Nat.add_zero]
        rw [hfun]
        simp only [List.take_zero, List.countP_nil, Nat.add_zero, Nat.sub_zero]
        omega

theorem max_depth_nested (toks : List token_t) (hnest : properly_nested toks) :
    max_depth (build_tree toks) = max_open toks := by
  have h1 := depth_foldl toks dom_init 0 0 dom_ok_init rfl rfl
  have h2 := counter_max_open toks 0 0 (Nat.le_refl _) (fun i => by
    have := nested_prefix toks [] i hnest
    simpa using this)
  rw [build_tree, h1, h2]
  simp only [Nat.zero_add, Nat.zero_max]
  rfl

theorem build_step_tag_names (d : dom_t) (t : token_t) (h : dom_ok d) :
    (build_step d t).heap.map (fun n => n.tag_name)
      = match t with
        | .start_tag name _ => d.heap.map (fun n => n.tag_name) ++ [some name]
        | _ => d.heap.map (fun n => n.tag_name) := by
  cases t with
  | text s => exact heap_update_map _ _ _ _ (fun _ => rfl)
  | start_tag name attrs =>
    have hm : (heap_update d.heap d.ptr
        (fun n => { n with childs := n.childs ++ [d.heap.length] })).map (fun n => n.tag_name)
        = d.heap.map (fun n => n.tag_name) := heap_update_map _ _ _ _ (fun _ => rfl)
    rw [build_step_start_heap d name attrs h.1, List.map_append, hm]
    rfl
  | end_tag name => rfl
  | eof => rfl

/-- Node `j + 1` carries the name of the `StartTag` number `j` of the run. -/
theorem tag_names_foldl (toks : List token_t) :
    ∀ d : dom_t, dom_ok d →
      (toks.foldl build_step d).heap.map (fun n => n.tag_name)
        = d.heap.map (fun n => n.tag_name) ++ (start_names toks).map some := by
  induction toks with
  | nil => intro d _; simp [start_names]
  | cons t ts ih =>
    intro d hd
    rw [List.foldl_cons, ih _ (dom_ok_step d t hd), build_step_tag_names d t hd]
    cases t <;> simp [start_names]

theorem getElem?_lt_length {α : Type} (l : List α) (k : Nat) (x : α) (h : l[k]? = some x) :
    k < l.length := by
  by_contra hge
  rw [List.getElem?_eq_none (show l.length ≤ k by omega)] at h
  exact Option.noConfusion h

theorem childs_ok_init : childs_ok dom_init.heap := by
  intro k n h
  cases k with
  | zero =>
    simp [dom_init] at h
    subst h
    simp [create_node]
  | succ k => simp [dom_init] at h

/-- Every step of the token loop keeps the children lists in order. -/
theorem childs_ok_step (d : dom_t) (t : token_t) (hd : dom_ok d) (h : childs_ok d.heap) :
    childs_ok (build_step d t).heap := by
  cases t with
  | end_tag name => exact h
  | eof => exact h
  | text s =>
    have hget : ∀ j : Nat, ∀ m, d.heap[j]? = some m →
        ∃ m', (build_step d (.text s)).heap[j]? = some m' ∧ m'.parent = m.parent ∧
          m'.childs = m.childs := by
      intro j m hm
      simp only [build_step, heap_update_getElem?]
      split_ifs
      · rw [hm]; exact ⟨_, rfl, rfl, rfl⟩
      · exact ⟨m, hm, rfl, rfl⟩
    intro k n hk
    simp only [build_step, heap_update_getElem?] at hk
    have hold : ∃ m, d.heap[k]? = some m ∧ n.childs = m.childs := by
      split_ifs at hk
      · obtain ⟨m, hm, rfl⟩ := Option.map_eq_some'.mp hk
        exact ⟨m, hm, rfl⟩
      · exact ⟨n, hk, rfl⟩
    obtain ⟨m, hm, hcm⟩ := hold
    obtain ⟨hpw, hch⟩ := h k m hm
    rw [hcm]
    refine ⟨hpw, ?_⟩
    intro c hc
    obtain ⟨mc, hmc, hpar⟩ := hch c hc
    obtain ⟨m', hm', hp', -⟩ := hget c mc hmc
    exact ⟨m', hm', by rw [hp', hpar]⟩
  | start_tag name attrs =>
    have hheap := build_step_start_heap d name attrs hd.1
    have hget : ∀ j : Nat, ∀ m, d.heap[j]? = some m →
        ∃ m', (build_step d (.start_tag name attrs)).heap[j]? = some m' ∧
          m'.parent = m.parent := by
      intro j m hm
      have hj := getElem?_lt_length _ _ _ hm
      rw [hheap, List.getElem?_append_left (by rw [heap_update_length]; exact hj),
        heap_update_getElem?]
      split_ifs
      · rw [hm]; exact ⟨_, rfl, rfl⟩
      · exact ⟨m, hm, rfl⟩
    have hnew : (build_step d (.start_tag name attrs)).heap[d.heap.length]?
        = some { childs := [], parent := some d.ptr, text := none, tag_name := some name,
                 type := tagname_to_node_type name } := by
      rw [hheap, List.getElem?_append_right (by rw [heap_update_length]), heap_update_length,
        Nat.sub_self]
      rfl
    intro k n hk
    by_cases hlt : k < d.heap.length
    · have hk' := hk
      rw [hheap, List.getElem?_append_left (by rw [heap_update_length]; exact hlt),
        heap_update_getElem?] at hk'
      by_cases hkp : k = d.ptr
      · rw [if_pos hkp] at hk'
        obtain ⟨m, hm, rfl⟩ := Option.map_eq_some'.mp hk'
        obtain ⟨hpw, hch⟩ := h k m hm
        refine ⟨?_, ?_⟩
        · simp only
          rw [List.pairwise_append]
          refine ⟨hpw, List.pairwise_singleton _ _, ?_⟩
          intro a ha b hb
          obtain ⟨ma, hma, -⟩ := hch a ha
          have := getElem?_lt_length _ _ _ hma
          simp only [List.mem_singleton] at hb
          omega
        · intro c hc
          simp only [List.mem_append, List.mem_singleton] at hc
          rcases hc with hc | hc
          · obtain ⟨mc, hmc, hpar⟩ := hch c hc
            obtain ⟨m', hm', hp'⟩ := hget c mc hmc
            exact ⟨m', hm', by rw [hp', hpar]⟩
          · subst hc
            exact ⟨_, hnew, by rw [hkp]⟩
      · rw [if_neg hkp] at hk'
        obtain ⟨hpw, hch⟩ := h k n hk'
        refine ⟨hpw, ?_⟩
        intro c hc
        obtain ⟨mc, hmc, hpar⟩ := hch c hc
        obtain ⟨m', hm', hp'⟩ := hget c mc hmc
        exact ⟨m', hm', by rw [hp', hpar]⟩
    · have hkl := getElem?_lt_length _ _ _ hk
      rw [hheap, List.length_append, heap_update_length, List.length_singleton] at hkl
      have hk0 : k = d.heap.length := by omega
      subst hk0
      rw [hnew] at hk
      cases hk
      simp

theorem childs_ok_foldl (toks : List token_t) :
    ∀ d : dom_t, dom_ok d → childs_ok d.heap → childs_ok (toks.foldl build_step d).heap := by
  induction toks with
  | nil => intro d _ h; exact h
  | cons t ts ih =>
    intro d hd h
    exact ih _ (dom_ok_step d t hd) (childs_ok_step d t hd h)


/-! ## Lookup of node kinds -/

/-- C11: `tagname_to_node_type` maps exactly the strings `h1`, `div`, `a` and
`p` to `H1`, `Div`, `Link` and `P` and every other string, such as `DIV`,
`H1` or the empty string, to `NODE_NONE`; it never returns `Root`; and in
every state the token loop reaches, the node created for a `StartTag` is the
new cursor, has the kind the lookup gives and carries the tag name of the
token unchanged. -/
theorem tagname_lookup :
    (∀ name : List Char,
      (tagname_to_node_type name = .NODE_H1 ↔ name = "h1".toList) ∧
      (tagname_to_node_type name = .NODE_DIV ↔ name = "div".toList) ∧
      (tagname_to_node_type name = .NODE_LINK ↔ name = "a".toList) ∧
      (tagname_to_node_type name = .NODE_P ↔ name = "p".toList) ∧
      (tagname_to_node_type name = .NODE_NONE ↔
        name ∉ ["h1".toList, "div".toList, "a".toList, "p".toList]) ∧
      tagname_to_node_type name ≠ .NODE_ROOT) ∧
    tagname_to_node_type "DIV".toList = .NODE_NONE ∧
    tagname_to_node_type "H1".toList = .NODE_NONE ∧
    tagname_to_node_type [] = .NODE_NONE ∧
    (∀ (toks : List token_t) (name : List Char) (attrs : List (attr_str × attr_str)),
      (build_step (build_tree toks) (.start_tag name attrs)).ptr
        = (build_tree toks).heap.length ∧
      (build_step (build_tree toks) (.start_tag name attrs)).heap[
          (build_step (build_tree toks) (.start_tag name attrs)).ptr]?
        = some { childs := [], parent := some (build_tree toks).ptr, text := none,
                 tag_name := some name, type := tagname_to_node_type name }) := by
  refine ⟨?_, by decide, by decide, by decide, ?_⟩
  · intro name
    by_cases e1 : name = "h1".toList
    · subst e1; decide
    · by_cases e2 : name = "div".toList
      · subst e2; decide
      · by_cases e3 : name = "a".toList
        · subst e3; decide
        · by_cases e4 : name = "p".toList
          · subst e4; decide
          · have hv : tagname_to_node_type name = .NODE_NONE := by
              unfold tagname_to_node_type
              rw [if_neg e1, if_neg e2, if_neg e3, if_neg e4]
            rw [hv]
            refine ⟨iff_of_false (by decide) e1, iff_of_false (by decide) e2,
              iff_of_false (by decide) e3, iff_of_false (by decide) e4,
              iff_of_true rfl ?_, by decide⟩
            intro hm
            simp only [List.mem_cons, List.mem_singleton, List.not_mem_nil, or_false] at hm
            rcases hm with h | h | h | h
            · exact e1 h
            · exact e2 h
            · exact e3 h
            · exact e4 h
  · intro toks name attrs
    have hp := (dom_ok_build toks).1
    refine ⟨rfl, ?_⟩
    rw [build_step_start_heap _ name attrs hp]
    have hptr : (build_step (build_tree toks) (.start_tag name attrs)).ptr
        = (build_tree toks).heap.length := rfl
    rw [hptr, List.getElem?_append_right (by rw [heap_update_length]), heap_update_length,
      Nat.sub_self]
    rfl

/-! ## Chunked decoder: the terminating chunk first -/

/-- C18, for every body: when the first chunk size scans as zero the loop is
left at once with `out == NULL`, and `out[total] = 0` writes through that
`NULL` pointer; no empty output is returned. -/
theorem decode_chunked_zero_first (buf : List Char) (h : sscanf_hex (cstr buf) = some 0) :
    decode_chunked buf = .fault .null_write := by
  unfold decode_chunked
  simp only [decode_loop, Nat.not_lt_zero, if_false, List.drop_zero, h, if_true]

/-- C18 at the failing inputs `"0\r\n\r\n"` and a zero chunk with a trailer. -/
theorem decode_chunked_zero_first_witness :
    sscanf_hex (cstr "0\r\n\r\n".toList) = some 0 ∧
    decode_chunked "0\r\n\r\n".toList = .fault .null_write ∧
    decode_chunked "0\r\nX-Sum: 1\r\n\r\n".toList = .fault .null_write :=
  ⟨by decide, decode_chunked_zero_first _ (by decide), decode_chunked_zero_first _ (by decide)⟩

/-! ## Lexer: spaces after the tag name, the end of the input, `LEX_TAG_OPEN` -/

/-- C14, for every tag name: when the character that follows the white space
behind a tag name is a space, the loop `while(c == ' ') i++;` of `LEX_ATTRS`
is entered with `c == ' '` and never changes `c`, so `lex` does not run to
completion; nothing is emitted for the tag. -/
theorem lex_two_spaces_hang (n rest : List Char)
    (hn : n ≠ []) (hn1 : ∀ c ∈ n, c ≠ NUL ∧ c ≠ '>' ∧ isspace c = false)
    (hslash : n.head? ≠ some '/') (hnl : n.length ≤ TMP_CAP) :
    lex ('<' :: n ++ ' ' :: ' ' :: rest) init_lexer = (⟨n, []⟩, .hang) := by
  obtain ⟨c, n', rfl⟩ := List.exists_cons_of_ne_nil hn
  obtain ⟨hc0, -, -⟩ := hn1 c (List.mem_cons_self _ _)
  have hc1 : c ≠ '/' := by
    intro e; apply hslash; simp [e]
  have hn' : ∀ a ∈ n', a ≠ NUL ∧ a ≠ '>' ∧ isspace a = false :=
    fun a ha => hn1 a (List.mem_cons_of_mem _ ha)
  simp only [List.length_cons] at hnl
  have hfuel : (('<' :: (c :: n') ++ ' ' :: ' ' :: rest).length + 2) * (TOKS_CAP + 1)
      = (('<' :: (c :: n') ++ ' ' :: ' ' :: rest).length + 2) * TOKS_CAP + 1
        + rest.length + 1 + 1 + 1 + n'.length + 1 + 1 := by
    simp only [List.length_cons, List.length_append, TOKS_CAP]
    omega
  have hbody : '<' :: (c :: n') ++ ' ' :: ' ' :: rest = '<' :: c :: (n' ++ ' ' :: ' ' :: rest) := by
    simp
  unfold lex init_lexer
  rw [hfuel, hbody, lex_loop_open_empty,
    lex_loop_tag_open _ c _ _ _ hc0 hc1 (by simp [TMP_CAP])]
  rw [lex_loop_name_run n' _ hn' _ _ _
    (by simp only [List.nil_append, List.length_singleton]; omega)]
  rw [lex_loop_name_space]
  have h : (' ' : Char) ≠ NUL := by decide
  simp only [lex_loop, h, if_false, if_true]
  simp

/-- C14 at the failing inputs `<a  href=x>` and `<p  >`. -/
theorem lex_two_spaces_hang_witness :
    "a".toList ≠ [] ∧
    lex "<a  href=x>".toList init_lexer = (⟨"a".toList, []⟩, .hang) ∧
    lex "<p  >".toList init_lexer = (⟨"p".toList, []⟩, .hang) :=
  ⟨by decide,
   lex_two_spaces_hang "a".toList "href=x>".toList (by decide) (by decide) (by decide)
    (by decide),
   lex_two_spaces_hang "p".toList ">".toList (by decide) (by decide) (by decide) (by decide)⟩

/-- C20 at the failing input `<a b`: `get_attrs` returns the index of the
terminating NUL, the `i++` that follows the `switch` moves `i` behind it, and
the loop condition reads `body[i]` outside the string. -/
theorem lex_steps_past_terminator :
    lex "<a b".toList init_lexer
      = (⟨[], [.start_tag "a".toList [(⟨"b".toList, true⟩, ⟨[], true⟩)]]⟩, .oob_read) := by
  decide

/-- C19 (amended): in state `LEX_TAG_OPEN` every character other than `/` is
stored as the first character of the tag name and the state becomes
`LEX_TAG_NAME`; for a character that is neither `>` nor white space this is
what processing it in `LEX_TAG_NAME` with an empty name buffer does, so the
rest of the run is the same from either state. -/
theorem tag_open_stores_first_char (body : List Char) (c : Char) (fuel : Nat)
    (rest : List Char) (toks : List token_t) (h0 : c ≠ NUL) (h1 : c ≠ '/') :
    lex_loop body (fuel + 1) .LEX_TAG_OPEN (c :: rest) ⟨[], toks⟩
      = lex_loop body fuel .LEX_TAG_NAME rest ⟨[c], toks⟩ ∧
    (c ≠ '>' → isspace c = false →
      lex_loop body (fuel + 1) .LEX_TAG_OPEN (c :: rest) ⟨[], toks⟩
        = lex_loop body (fuel + 1) .LEX_TAG_NAME (c :: rest) ⟨[], toks⟩) := by
  have hopen : lex_loop body (fuel + 1) .LEX_TAG_OPEN (c :: rest) ⟨[], toks⟩
      = lex_loop body fuel .LEX_TAG_NAME rest ⟨[] ++ [c], toks⟩ :=
    lex_loop_tag_open fuel c rest [] toks h0 h1 (by simp [TMP_CAP])
  refine ⟨by simpa using hopen, ?_⟩
  intro h2 h3
  rw [hopen]
  have hcap : ¬ TMP_CAP ≤ ([] : List Char).length := by simp [TMP_CAP]
  simp only [lex_loop, h0, h2, h3, if_false, append_to_buffer, hcap, or_self,
    Bool.false_eq_true]

/-- C19 at the character `p` of the body `<p>`. -/
theorem tag_open_stores_first_char_witness :
    'p' ≠ NUL ∧ 'p' ≠ '/' ∧
    lex_loop "<p>".toList 3 .LEX_TAG_OPEN "p>".toList ⟨[], []⟩
      = lex_loop "<p>".toList 3 .LEX_TAG_NAME "p>".toList ⟨[], []⟩ :=
  ⟨by decide, by decide,
   (tag_open_stores_first_char "<p>".toList 'p' 2 ">".toList [] (by decide) (by decide)).2
    (by decide) (by decide)⟩

/-- C19 fails as stated: `>` and white space are stored by `LEX_TAG_OPEN` like
any other character, while `LEX_TAG_NAME` with an empty name buffer goes back
to `LEX_TEXT` on `>` and on to `LEX_ATTRS` on white space.  So `<>` leaves the
name `>` in the buffer, and `< p>` yields a tag named ` p` where the rules of
`LEX_TAG_NAME` give a tag without name and the attribute `p`. -/
theorem tag_open_differs :
    lex_loop "<>".toList 2 .LEX_TAG_OPEN ['>'] ⟨[], []⟩ = (⟨['>'], []⟩, .done) ∧
    lex_loop "<>".toList 2 .LEX_TAG_NAME ['>'] ⟨[], []⟩ = (⟨[], []⟩, .done) ∧
    lex_loop "< p>".toList 4 .LEX_TAG_OPEN " p>".toList ⟨[], []⟩
      = (⟨[], [.start_tag " p".toList []]⟩, .done) ∧
    lex_loop "< p>".toList 4 .LEX_TAG_NAME " p>".toList ⟨[], []⟩
      = (⟨[], [.start_tag [] [(⟨['p'], true⟩, ⟨[], true⟩)]]⟩, .done) ∧
    lex "< p>".toList init_lexer = (⟨[], [.start_tag " p".toList []]⟩, .done) := by
  decide

/-! ## Tree builder: traversal order and well-formedness -/

theorem spine_chain_le_head (par : Nat → Option Nat) (ch : Nat → List Nat) :
    ∀ (st : List Nat) (a : Nat), spine_chain par ch (a :: st) → ∀ x ∈ a :: st, x ≤ a := by
  intro st
  induction st with
  | nil => intro a _ x hx; simp at hx; omega
  | cons b rest ih =>
    intro a h x hx
    obtain ⟨⟨-, -, hlt⟩, hrest⟩ := h
    rcases List.mem_cons.mp hx with rfl | hx'
    · exact Nat.le_refl _
    · have := ih b hrest x hx'
      omega

theorem spine_chain_zero_mem (par : Nat → Option Nat) (ch : Nat → List Nat) :
    ∀ (st : List Nat), spine_chain par ch st → 0 ∈ st := by
  intro st
  induction st with
  | nil => intro h; exact h.elim
  | cons a rest ih =>
    intro h
    cases rest with
    | nil =>
      have : a = 0 := h
      simp [this]
    | cons b rest => exact List.mem_cons_of_mem _ (ih h.2)

/-- A node of the path other than `Root` is followed by its parent, of which
it is the last child. -/
theorem spine_chain_next (par : Nat → Option Nat) (ch : Nat → List Nat) :
    ∀ (st : List Nat), spine_chain par ch st → ∀ x ∈ st, x ≠ 0 →
      ∃ b ∈ st, par x = some b ∧ (ch b).getLast? = some x := by
  intro st
  induction st with
  | nil => intro h; exact h.elim
  | cons a rest ih =>
    intro h x hx hx0
    cases rest with
    | nil =>
      have ha : a = 0 := h
      simp only [List.mem_singleton] at hx
      omega
    | cons b rest =>
      obtain ⟨⟨hp, hl, -⟩, hrest⟩ := h
      rcases List.mem_cons.mp hx with rfl | hx'
      · exact ⟨b, by simp, hp, hl⟩
      · obtain ⟨b', hb', h1, h2⟩ := ih hrest x hx' hx0
        exact ⟨b', List.mem_cons_of_mem _ hb', h1, h2⟩

/-- A node of the path other than the cursor has its last child on the path. -/
theorem spine_chain_prev (par : Nat → Option Nat) (ch : Nat → List Nat) :
    ∀ (st : List Nat) (a : Nat), spine_chain par ch (a :: st) → ∀ k ∈ st,
      ∃ x ∈ a :: st, (ch k).getLast? = some x := by
  intro st
  induction st with
  | nil => intro a _ k hk; simp at hk
  | cons b rest ih =>
    intro a h k hk
    obtain ⟨⟨-, hl, -⟩, hrest⟩ := h
    rcases List.mem_cons.mp hk with rfl | hk'
    · exact ⟨a, by simp, hl⟩
    · obtain ⟨x, hx, h2⟩ := ih b hrest k hk'
      exact ⟨x, List.mem_cons_of_mem _ hx, h2⟩

theorem spine_chain_congr (par par' : Nat → Option Nat) (ch ch' : Nat → List Nat) :
    ∀ (st : List Nat) (a : Nat), spine_chain par ch (a :: st) →
      (∀ x ∈ a :: st, par' x = par x) → (∀ x ∈ st, ch' x = ch x) →
      spine_chain par' ch' (a :: st) := by
  intro st
  induction st with
  | nil => intro a h _ _; exact h
  | cons b rest ih =>
    intro a h hp hc
    obtain ⟨⟨h1, h2, h3⟩, hrest⟩ := h
    refine ⟨⟨?_, ?_, h3⟩, ?_⟩
    · rw [hp a (by simp)]; exact h1
    · rw [hc b (by simp)]; exact h2
    · exact ih b hrest (fun x hx => hp x (List.mem_cons_of_mem _ hx))
        (fun x hx => hc x (List.mem_cons_of_mem _ hx))

theorem preorder_of_succ (ch : Nat → List Nat) (f k : Nat) :
    preorder_of ch (f + 1) k = k :: ((ch k).map (preorder_of ch f)).flatten := rfl

/-- Traversal after a new leaf `n` was added as the last child of the cursor
`c`: the traversal from a node on the path from the cursor to `Root` gains
`n` at its end, every other traversal is unchanged. -/
theorem preorder_append_leaf (par : Nat → Option Nat) (ch ch' : Nat → List Nat) (n c : Nat)
    (st : List Nat) (hchain : spine_chain par ch (c :: st))
    (hch' : ∀ k, ch' k = if k = c then ch k ++ [n] else ch k)
    (hleaf : ch n = []) (hcn : c < n)
    (F1 : ∀ k, ∀ x ∈ ch k, k < x ∧ x < n ∧ par x = some k)
    (F2 : ∀ k, (ch k).Pairwise (fun a b => a < b)) :
    ∀ (f k : Nat), k < n → n < f + k →
      preorder_of ch' f k = preorder_of ch f k ++ (if k ∈ c :: st then [n] else []) := by
  intro f
  induction f with
  | zero => intro k hk hf; omega
  | succ f ih =>
    intro k hk hf
    have hnot : ∀ x ∈ ch k, (ch k).getLast? ≠ some x → x ∉ c :: st := by
      intro x hx hlast hmem
      obtain ⟨hkx, -, hpar⟩ := F1 k x hx
      obtain ⟨b, -, hpb, hlb⟩ := spine_chain_next par ch _ hchain x hmem (by omega)
      rw [hpar] at hpb
      cases hpb
      exact hlast hlb
    by_cases hkc : k = c
    · subst hkc
      have hf1 : ∃ f', f = f' + 1 := ⟨f - 1, by omega⟩
      obtain ⟨f', rfl⟩ := hf1
      have hn : preorder_of ch' (f' + 1) n = [n] := by
        rw [preorder_of_succ, hch' n, if_neg (by omega), hleaf]
        rfl
      have hmap : (ch k).map (preorder_of ch' (f' + 1)) = (ch k).map (preorder_of ch (f' + 1)) := by
        apply List.map_congr_left
        intro x hx
        obtain ⟨hkx, hxn, -⟩ := F1 k x hx
        have hxs : x ∉ k :: st := by
          intro hmem
          have := spine_chain_le_head par ch st k hchain x hmem
          omega
        rw [ih x hxn (by omega), if_neg hxs, List.append_nil]
      rw [preorder_of_succ ch' (f' + 1) k, preorder_of_succ ch (f' + 1) k,
        hch' k, if_pos rfl, List.map_append, List.flatten_append, hmap]
      simp only [List.map_cons, List.map_nil, List.flatten_cons, List.flatten_nil,
        List.append_nil, hn, List.mem_cons, true_or, if_true, List.cons_append]
    · have hchk : ch' k = ch k := by rw [hch' k, if_neg hkc]
      by_cases hks : k ∈ c :: st
      · have hks' : k ∈ st := by
          rcases List.mem_cons.mp hks with h | h
          · exact absurd h hkc
          · exact h
        obtain ⟨a, ha, hlast⟩ := spine_chain_prev par ch st c hchain k hks'
        obtain ⟨init, hinit⟩ := List.getLast?_eq_some_iff.mp hlast
        have hain : a ∈ ch k := List.mem_of_getLast?_eq_some hlast
        obtain ⟨hka, han, -⟩ := F1 k a hain
        have hpw := F2 k
        rw [hinit, List.pairwise_append] at hpw
        have hmap : init.map (preorder_of ch' f) = init.map (preorder_of ch f) := by
          apply List.map_congr_left
          intro x hx
          have hxk : x ∈ ch k := by rw [hinit]; exact List.mem_append_left _ hx
          obtain ⟨hkx, hxn, -⟩ := F1 k x hxk
          have hxa : x < a := hpw.2.2 x hx a (by simp)
          have hxs : x ∉ c :: st := by
            apply hnot x hxk
            rw [hlast]
            intro e
            cases e
            omega
          rw [ih x hxn (by omega), if_neg hxs, List.append_nil]
        have hanew := ih a han (by omega)
        rw [if_pos ha] at hanew
        rw [preorder_of_succ ch' f k, preorder_of_succ ch f k,
          hchk, hinit, List.map_append, List.flatten_append, List.map_append,
          List.flatten_append, hmap, if_pos hks]
        simp only [List.map_cons, List.map_nil, List.flatten_cons, List.flatten_nil,
          List.append_nil, hanew, List.cons_append, List.append_assoc]
      · have hmap : (ch k).map (preorder_of ch' f) = (ch k).map (preorder_of ch f) := by
          apply List.map_congr_left
          intro x hx
          obtain ⟨hkx, hxn, hpar⟩ := F1 k x hx
          have hxs : x ∉ c :: st := by
            intro hmem
            obtain ⟨b, hb, hpb, -⟩ := spine_chain_next par ch _ hchain x hmem (by omega)
            rw [hpar] at hpb
            cases hpb
            exact hks hb
          rw [ih x hxn (by omega), if_neg hxs, List.append_nil]
        rw [preorder_of_succ ch' f k, preorder_of_succ ch f k,
          hchk, hmap, if_neg hks, List.append_nil]

theorem node_childs_facts (d : dom_t) (hd : dom_ok d) (hc : childs_ok d.heap) :
    (∀ k, ∀ x ∈ node_childs d.heap k,
      k < x ∧ x < d.heap.length ∧ parent_of d.heap x = some k) ∧
    (∀ k, (node_childs d.heap k).Pairwise (fun a b => a < b)) := by
  constructor
  · intro k x hx
    unfold node_childs at hx
    cases hk : d.heap[k]? with
    | none => rw [hk] at hx; simp at hx
    | some n =>
      rw [hk] at hx
      obtain ⟨m, hm, hpar⟩ := (hc k n hk).2 x hx
      refine ⟨?_, getElem?_lt_length _ _ _ hm, by simp [parent_of, hm, hpar]⟩
      rcases hd.2 x m hm with ⟨-, hnone, -⟩ | ⟨p, hp, hlt, -⟩
      · rw [hnone] at hpar; exact Option.noConfusion hpar
      · rw [hp] at hpar
        cases hpar
        exact hlt
  · intro k
    unfold node_childs
    cases hk : d.heap[k]? with
    | none => exact List.Pairwise.nil
    | some n => exact (hc k n hk).1

theorem node_childs_text (d : dom_t) (s : List Char) :
    node_childs (build_step d (.text s)).heap = node_childs d.heap ∧
    parent_of (build_step d (.text s)).heap = parent_of d.heap := by
  constructor
  · funext k
    simp only [node_childs, build_step, heap_update_getElem?]
    split_ifs
    · cases d.heap[k]? <;> rfl
    · rfl
  · funext k
    simp only [parent_of, build_step, heap_update_getElem?]
    split_ifs
    · cases d.heap[k]? <;> rfl
    · rfl

theorem node_childs_start (d : dom_t) (name : List Char) (attrs : List (attr_str × attr_str))
    (hp : d.ptr < d.heap.length) :
    (∀ k, node_childs (build_step d (.start_tag name attrs)).heap k
      = if k = d.ptr then node_childs d.heap k ++ [d.heap.length] else node_childs d.heap k) ∧
    (∀ k, parent_of (build_step d (.start_tag name attrs)).heap k
      = if k = d.heap.length then some d.ptr else parent_of d.heap k) := by
  have hheap := build_step_start_heap d name attrs hp
  constructor
  · intro k
    unfold node_childs
    rw [hheap]
    by_cases hlt : k < d.heap.length
    · obtain ⟨m, hm⟩ : ∃ m, d.heap[k]? = some m := ⟨_, List.getElem?_eq_getElem hlt⟩
      rw [List.getElem?_append_left (by rw [heap_update_length]; exact hlt),
        heap_update_getElem?, hm]
      split_ifs with hkp <;> rfl
    · have hkp : k ≠ d.ptr := by omega
      rw [if_neg hkp, List.getElem?_append_right (by rw [heap_update_length]; omega),
        heap_update_length, List.getElem?_eq_none (show d.heap.length ≤ k by omega)]
      by_cases hk0 : k - d.heap.length = 0
      · rw [hk0]; rfl
      · rw [List.getElem?_eq_none (by simp; omega)]
  · intro k
    unfold parent_of
    rw [hheap]
    by_cases hlt : k < d.heap.length
    · rw [if_neg (by omega), List.getElem?_append_left (by rw [heap_update_length]; exact hlt),
        heap_update_getElem?]
      split_ifs with hkp
      · cases d.heap[k]? <;> rfl
      · rfl
    · rw [List.getElem?_append_right (by rw [heap_update_length]; omega), heap_update_length]
      by_cases hk0 : k = d.heap.length
      · rw [if_pos hk0, hk0, Nat.sub_self]; rfl
      · rw [if_neg hk0, List.getElem?_eq_none (by simp; omega),
          List.getElem?_eq_none (show d.heap.length ≤ k by omega)]

/-- Every step of the token loop keeps the path from the cursor to `Root` and
the order of the traversal. -/
theorem preorder_ok_step (d : dom_t) (t : token_t) (st : List Nat) (hd : dom_ok d)
    (hc : childs_ok d.heap) (hs : spine_ok d st) (hpre : preorder_ok d) :
    ∃ st', spine_ok (build_step d t) st' ∧ preorder_ok (build_step d t) := by
  obtain ⟨hhead, hchain⟩ := hs
  cases t with
  | eof => exact ⟨st, ⟨hhead, hchain⟩, hpre⟩
  | text s =>
    obtain ⟨h1, h2⟩ := node_childs_text d s
    refine ⟨st, ⟨hhead, ?_⟩, ?_⟩
    · rw [h1, h2]; exact hchain
    · intro f hf
      rw [h1]
      have hlen : (build_step d (.text s)).heap.length = d.heap.length := by
        simp [build_step, heap_update_length]
      rw [hlen] at hf ⊢
      exact hpre f hf
  | end_tag name =>
    obtain ⟨n, hn⟩ : ∃ n, d.heap[d.ptr]? = some n := ⟨_, List.getElem?_eq_getElem hd.1⟩
    cases st with
    | nil => exact hchain.elim
    | cons a rest =>
      have ha : a = d.ptr := by simpa using hhead
      subst ha
      cases rest with
      | nil =>
        have h0 : d.ptr = 0 := hchain
        refine ⟨[d.ptr], ⟨?_, hchain⟩, hpre⟩
        rcases hd.2 d.ptr n hn with ⟨-, hnone, -⟩ | ⟨p, -, hlt, -⟩
        · simp [build_step, dom_pop, hn, hnone]
        · omega
      | cons b rest =>
        obtain ⟨⟨hpar, -, -⟩, hrest⟩ := hchain
        refine ⟨b :: rest, ⟨?_, hrest⟩, hpre⟩
        have hpar2 : n.parent = some b := by
          simpa [parent_of, hn] using hpar
        simp [build_step, dom_pop, hn, hpar2]
  | start_tag name attrs =>
    obtain ⟨hch', hpar'⟩ := node_childs_start d name attrs hd.1
    obtain ⟨F1, F2⟩ := node_childs_facts d hd hc
    cases st with
    | nil => exact hchain.elim
    | cons a rest =>
      have ha : a = d.ptr := by simpa using hhead
      subst ha
      have hle := spine_chain_le_head _ _ rest d.ptr hchain
      have hlen : (build_step d (.start_tag name attrs)).heap.length = d.heap.length + 1 := by
        rw [build_step_start_heap d name attrs hd.1]
        simp [heap_update_length]
      have hleaf : node_childs d.heap d.heap.length = [] := by
        simp [node_childs]
      refine ⟨d.heap.length :: d.ptr :: rest, ⟨rfl, ?_⟩, ?_⟩
      · refine ⟨⟨?_, ?_, hd.1⟩, ?_⟩
        · rw [hpar', if_pos rfl]
        · rw [hch', if_pos rfl, List.getLast?_concat]
        · apply spine_chain_congr _ _ _ _ rest d.ptr hchain
          · intro x hx
            have := hle x hx
            rw [hpar', if_neg (by have := hd.1; omega)]
          · intro x hx
            have hxlt : x < d.ptr := by
              clear hpre hch' hpar' F1 F2 hleaf hlen hle
              induction rest generalizing x with
              | nil => simp at hx
              | cons b rest ih =>
                obtain ⟨⟨-, -, hlt⟩, hrest⟩ := hchain
                rcases List.mem_cons.mp hx with rfl | hx'
                · exact hlt
                · have := spine_chain_le_head _ _ rest b hrest x (List.mem_cons_of_mem _ hx')
                  omega
            rw [hch', if_neg (by omega)]
      · intro f hf
        rw [hlen] at hf ⊢
        have hstep := preorder_append_leaf (parent_of d.heap) (node_childs d.heap)
          (node_childs (build_step d (.start_tag name attrs)).heap) d.heap.length d.ptr rest
          hchain hch' hleaf hd.1 F1 F2 f 0 (by have := hd.1; omega) (by omega)
        rw [hstep, hpre f (by omega),
          if_pos (spine_chain_zero_mem _ _ _ hchain), List.range_succ]

theorem preorder_ok_foldl (toks : List token_t) :
    ∀ (d : dom_t) (st : List Nat), dom_ok d → childs_ok d.heap → spine_ok d st →
      preorder_ok d → preorder_ok (toks.foldl build_step d) := by
  induction toks with
  | nil => intro d st _ _ _ h; exact h
  | cons t ts ih =>
    intro d st hd hc hs hpre
    obtain ⟨st', hs', hpre'⟩ := preorder_ok_step d t st hd hc hs hpre
    exact ih _ st' (dom_ok_step d t hd) (childs_ok_step d t hd hc) hs' hpre'

theorem preorder_ok_build (toks : List token_t) : preorder_ok (build_tree toks) := by
  apply preorder_ok_foldl toks dom_init [0] dom_ok_init childs_ok_init
  · exact ⟨rfl, rfl⟩
  · intro f hf
    obtain ⟨f', rfl⟩ : ∃ f', f = f' + 1 := ⟨f - 1, by simp [dom_init] at hf; omega⟩
    rfl

theorem range_map_getElem? {α β : Type} (l : List α) (g : α → Option β) :
    (List.range l.length).map (fun k => l[k]?.bind g) = l.map g := by
  apply List.ext_getElem?
  intro i
  rw [List.getElem?_map, List.getElem?_map]
  by_cases hi : i < l.length
  · rw [List.getElem?_range hi, List.getElem?_eq_getElem hi]
    simp [List.getElem?_eq_getElem hi]
  · rw [List.getElem?_eq_none (by simpa using hi), List.getElem?_eq_none (by omega)]
    rfl

/-- C12: no tag is dropped and document order is kept.  For every token
sequence, balanced or not, the pre-order traversal of the built tree visits
`Root` and then the other nodes in the order of their creation; the tree has
one node besides `Root` for each `StartTag` token, and the tag names read
along the traversal behind `Root` are the names of the `StartTag` tokens in
the order in which they occur. -/
theorem preorder_is_document_order (toks : List token_t) :
    dom_preorder (build_tree toks) = List.range (build_tree toks).heap.length ∧
    (build_tree toks).heap.length = (start_names toks).length + 1 ∧
    (dom_preorder (build_tree toks)).tail.map
        (fun k => (build_tree toks).heap[k]?.bind (fun n => n.tag_name))
      = (start_names toks).map some := by
  have hpre := preorder_ok_build toks (build_tree toks).heap.length (Nat.le_refl _)
  have hnames := tag_names_foldl toks dom_init dom_ok_init
  have hnames' : (build_tree toks).heap.map (fun n => n.tag_name)
      = none :: (start_names toks).map some := hnames
  refine ⟨hpre, ?_, ?_⟩
  · have := congrArg List.length hnames'
    simpa using this
  · unfold dom_preorder
    rw [hpre, List.map_tail, range_map_getElem?, hnames']
    rfl

theorem listed_ok_init : listed_ok dom_init.heap := by
  intro k n p hk hp
  cases k with
  | zero =>
    simp [dom_init] at hk
    subst hk
    simp [create_node] at hp
  | succ k => simp [dom_init] at hk

/-- What a step of the token loop leaves as it is: every node stays where it
is in the heap, with its parent, kind and tag name, and its children list is
only extended at the end. -/
theorem build_step_stable (d : dom_t) (t : token_t) (hd : dom_ok d) (k : Nat) (n : node_t)
    (hk : d.heap[k]? = some n) :
    ∃ n' : node_t, (build_step d t).heap[k]? = some n' ∧ n'.parent = n.parent ∧
      n'.type = n.type ∧ n'.tag_name = n.tag_name ∧ n.childs <+: n'.childs := by
  cases t with
  | eof => exact ⟨n, hk, rfl, rfl, rfl, List.prefix_refl _⟩
  | end_tag name => exact ⟨n, hk, rfl, rfl, rfl, List.prefix_refl _⟩
  | text s =>
    simp only [build_step, heap_update_getElem?, hk]
    split_ifs
    · exact ⟨_, rfl, rfl, rfl, rfl, List.prefix_refl _⟩
    · exact ⟨n, rfl, rfl, rfl, rfl, List.prefix_refl _⟩
  | start_tag name attrs =>
    have hlt := getElem?_lt_length _ _ _ hk
    rw [build_step_start_heap d name attrs hd.1,
      List.getElem?_append_left (by rw [heap_update_length]; exact hlt),
      heap_update_getElem?, hk]
    split_ifs
    · exact ⟨_, rfl, rfl, rfl, rfl, List.prefix_append _ _⟩
    · exact ⟨n, rfl, rfl, rfl, rfl, List.prefix_refl _⟩

theorem listed_ok_step (d : dom_t) (t : token_t) (hd : dom_ok d) (h : listed_ok d.heap) :
    listed_ok (build_step d t).heap := by
  intro k n p hk hp
  by_cases hlt : k < d.heap.length
  · obtain ⟨m, hm⟩ : ∃ m, d.heap[k]? = some m := ⟨_, List.getElem?_eq_getElem hlt⟩
    obtain ⟨m', hm', hpar, -, -, -⟩ := build_step_stable d t hd k m hm
    rw [hk] at hm'
    cases hm'
    obtain ⟨np, hnp, hmem⟩ := h k m p hm (by rw [← hpar]; exact hp)
    obtain ⟨np', hnp', -, -, -, hpre⟩ := build_step_stable d t hd p np hnp
    exact ⟨np', hnp', hpre.subset hmem⟩
  · cases t with
    | eof => exact absurd (getElem?_lt_length _ _ _ hk) hlt
    | end_tag name => exact absurd (getElem?_lt_length _ _ _ hk) hlt
    | text s =>
      have := getElem?_lt_length _ _ _ hk
      simp only [build_step, heap_update_length] at this
      exact absurd this hlt
    | start_tag name attrs =>
      have hheap := build_step_start_heap d name attrs hd.1
      have hkl := getElem?_lt_length _ _ _ hk
      rw [hheap, List.length_append, heap_update_length, List.length_singleton] at hkl
      have hk0 : k = d.heap.length := by omega
      subst hk0
      rw [hheap, List.getElem?_append_right (by rw [heap_update_length]), heap_update_length,
        Nat.sub_self] at hk
      simp only [List.getElem?_cons_zero, Option.some.injEq] at hk
      subst hk
      simp only [Option.some.injEq] at hp
      subst hp
      obtain ⟨m, hm⟩ : ∃ m, d.heap[d.ptr]? = some m := ⟨_, List.getElem?_eq_getElem hd.1⟩
      refine ⟨{ m with childs := m.childs ++ [d.heap.length] }, ?_, by simp⟩
      rw [hheap, List.getElem?_append_left (by rw [heap_update_length]; exact hd.1),
        heap_update_getElem?, if_pos rfl, hm]
      rfl

theorem listed_ok_foldl (toks : List token_t) :
    ∀ d : dom_t, dom_ok d → listed_ok d.heap → listed_ok (toks.foldl build_step d).heap := by
  induction toks with
  | nil => intro d _ h; exact h
  | cons t ts ih =>
    intro d hd h
    exact ih _ (dom_ok_step d t hd) (listed_ok_step d t hd h)

/-- C13: after any token sequence the cursor is a node of the tree; node `0`
is a `Root` without parent and no other node is a `Root`; every other node
has a parent, occurs exactly once in the children list of that parent and in
no other children list; and whatever token comes next, the step leaves every
node in place with its parent, kind and tag name and with its children list
kept as a prefix of the new one. -/
theorem tree_well_formed (toks : List token_t) :
    (build_tree toks).ptr < (build_tree toks).heap.length ∧
    (∃ r : node_t, (build_tree toks).heap[0]? = some r ∧ r.type = .NODE_ROOT ∧
      r.parent = none) ∧
    (∀ (k : Nat) (n : node_t), (build_tree toks).heap[k]? = some n → k ≠ 0 →
      n.type ≠ .NODE_ROOT ∧
      ∃ (p : Nat) (np : node_t), n.parent = some p ∧
        (build_tree toks).heap[p]? = some np ∧ np.childs.count k = 1 ∧
        ∀ (q : Nat) (nq : node_t), (build_tree toks).heap[q]? = some nq →
          k ∈ nq.childs → q = p) ∧
    (∀ (t : token_t) (k : Nat) (n : node_t), (build_tree toks).heap[k]? = some n →
      ∃ n' : node_t, (build_step (build_tree toks) t).heap[k]? = some n' ∧
        n'.parent = n.parent ∧ n'.type = n.type ∧ n'.tag_name = n.tag_name ∧
        n.childs <+: n'.childs) := by
  have hd := dom_ok_build toks
  have hc : childs_ok (build_tree toks).heap :=
    childs_ok_foldl toks dom_init dom_ok_init childs_ok_init
  have hl : listed_ok (build_tree toks).heap :=
    listed_ok_foldl toks dom_init dom_ok_init listed_ok_init
  refine ⟨hd.1, ?_, ?_, ?_⟩
  · have h0 : 0 < (build_tree toks).heap.length := by have := hd.1; omega
    obtain ⟨r, hr⟩ : ∃ r, (build_tree toks).heap[0]? = some r :=
      ⟨_, List.getElem?_eq_getElem h0⟩
    rcases hd.2 0 r hr with ⟨-, hpar, hty⟩ | ⟨p, -, hlt, -⟩
    · exact ⟨r, hr, hty, hpar⟩
    · omega
  · intro k n hk hk0
    rcases hd.2 k n hk with ⟨h0, -, -⟩ | ⟨p, hpar, -, hty⟩
    · exact absurd h0 hk0
    · refine ⟨hty, ?_⟩
      obtain ⟨np, hnp, hmem⟩ := hl k n p hk hpar
      refine ⟨p, np, hpar, hnp, ?_, ?_⟩
      · have hnodup : np.childs.Nodup := by
          have := (hc p np hnp).1
          exact this.imp (fun h => Nat.ne_of_lt h)
        exact List.count_eq_one_of_mem hnodup hmem
      · intro q nq hq hkq
        obtain ⟨m, hm, hmp⟩ := (hc q nq hq).2 k hkq
        rw [hk] at hm
        cases hm
        rw [hpar] at hmp
        cases hmp
        rfl
  · intro t k n hk
    exact build_step_stable _ t hd k n hk

/-! ## Depth of the tree and order of the children -/

/-- Walking down the `childs` lists finds every node at the depth that its
parent pointers give, when every child is one level below its owner. -/
theorem depths_from_preorder (ch : Nat → List Nat) (D : Nat → Nat)
    (hD : ∀ k, ∀ c ∈ ch k, D c = D k + 1) :
    ∀ (fuel k : Nat), depths_from ch fuel k (D k) = (preorder_of ch fuel k).map D := by
  intro fuel
  induction fuel with
  | zero => intro k; rfl
  | succ f ih =>
    intro k
    rw [preorder_of_succ]
    simp only [depths_from, List.map_cons, List.map_flatten, List.map_map]
    congr 2
    apply List.map_congr_left
    intro c hc
    rw [← hD k c hc, ih c]
    rfl

/-- The depth reached through the `childs` lists is the largest depth that
the parent pointers give. -/
theorem tree_depth_eq (d : dom_t) (hd : dom_ok d) (hc : childs_ok d.heap) (hp : preorder_ok d) :
    tree_depth d = max_depth d := by
  have hspec := depths_of_spec _ (dom_ok_parent_order d hd)
  have hD : ∀ k, ∀ c ∈ node_childs d.heap k,
      (node_depths d).getD c 0 = (node_depths d).getD k 0 + 1 := by
    intro k c hck
    obtain ⟨-, hlt, hpar⟩ := (node_childs_facts d hd hc).1 k c hck
    obtain ⟨m, hm⟩ : ∃ m, d.heap[c]? = some m := ⟨_, List.getElem?_eq_getElem hlt⟩
    have hmp : m.parent = some k := by simpa [parent_of, hm] using hpar
    have := hspec c m.parent (by rw [List.getElem?_map, hm]; rfl)
    rw [hmp] at this
    exact this
  have h0 : (node_depths d).getD 0 0 = 0 := by
    have hlen : 0 < d.heap.length := by have := hd.1; omega
    obtain ⟨r, hr⟩ : ∃ r, d.heap[0]? = some r := ⟨_, List.getElem?_eq_getElem hlen⟩
    have := hspec 0 r.parent (by rw [List.getElem?_map, hr]; rfl)
    rcases hd.2 0 r hr with ⟨-, hnone, -⟩ | ⟨p, -, hlt, -⟩
    · rw [hnone] at this; exact this
    · omega
  have hwalk := depths_from_preorder (node_childs d.heap) (fun x => (node_depths d).getD x 0)
    hD d.heap.length 0
  simp only [h0] at hwalk
  have hlen : (node_depths d).length = d.heap.length := by
    simp [node_depths, depths_of_length]
  have hall : (List.range d.heap.length).map (fun x => (node_depths d).getD x 0)
      = node_depths d := by
    apply List.ext_getElem?
    intro i
    rw [List.getElem?_map]
    by_cases hi : i < d.heap.length
    · rw [List.getElem?_range hi, List.getElem?_eq_getElem (by omega)]
      simp [List.getD_eq_getElem?_getD,
        List.getElem?_eq_getElem (show i < (node_depths d).length by omega)]
    · rw [List.getElem?_eq_none (by simpa using hi), List.getElem?_eq_none (by omega)]
      rfl
  unfold tree_depth max_depth
  rw [hwalk, hp d.heap.length (Nat.le_refl _), hall]

/-- The children list of a node holds exactly the nodes whose parent it is,
in the order of their creation. -/
theorem childs_eq_nodes_below (d : dom_t) (hc : childs_ok d.heap)
    (hl : listed_ok d.heap) (k : Nat) (n : node_t) (hk : d.heap[k]? = some n) :
    n.childs = nodes_below d.heap k := by
  have hs1 : List.Sorted (fun a b : Nat => a < b) n.childs := (hc k n hk).1
  have hs2 : List.Sorted (fun a b : Nat => a < b) (nodes_below d.heap k) :=
    List.Pairwise.filter _ (List.pairwise_lt_range _)
  apply List.eq_of_perm_of_sorted _ hs1 hs2
  apply (List.perm_ext_iff_of_nodup (hs1.imp (fun h => Nat.ne_of_lt h))
    (hs2.imp (fun h => Nat.ne_of_lt h))).mpr
  intro c
  simp only [nodes_below, List.mem_filter, List.mem_range, decide_eq_true_eq]
  constructor
  · intro hcm
    obtain ⟨m, hm, hmp⟩ := (hc k n hk).2 c hcm
    exact ⟨getElem?_lt_length _ _ _ hm, by simp [parent_of, hm, hmp]⟩
  · rintro ⟨hlt, hpar⟩
    obtain ⟨m, hm⟩ : ∃ m, d.heap[c]? = some m := ⟨_, List.getElem?_eq_getElem hlt⟩
    have hmp : m.parent = some k := by simpa [parent_of, hm] using hpar
    obtain ⟨np, hnp, hmem⟩ := hl c m k hm hmp
    rw [hk] at hnp
    cases hnp
    exact hmem

/-- C10: for every properly nested token sequence the tree built from it has
maximum depth, `Root` counted as depth `0`, equal to the largest number of
`StartTag`s open at the same time.  The depth is that of the tree reached
from `Root` through the children lists, one level for each step to a child,
and it is also what the parent pointers give (`0` without parent, one more
than the parent otherwise).  Node `j + 1` is the node of the `StartTag`
number `j`, and the children list of every node holds exactly the nodes
whose parent it is, each once, in increasing node index, that is in the
order of their `StartTag`s. -/
theorem nested_depth_and_order (toks : List token_t) (hnest : properly_nested toks) :
    tree_depth (build_tree toks) = max_open toks ∧
    max_depth (build_tree toks) = max_open toks ∧
    (∀ (k : Nat) (n : node_t), (build_tree toks).heap[k]? = some n →
      (node_depths (build_tree toks)).getD k 0
        = match n.parent with
          | none => 0
          | some p => (node_depths (build_tree toks)).getD p 0 + 1) ∧
    (build_tree toks).heap.map (fun n => n.tag_name) = none :: (start_names toks).map some ∧
    (∀ (k : Nat) (n : node_t), (build_tree toks).heap[k]? = some n →
      n.childs = nodes_below (build_tree toks).heap k) ∧
    childs_ok (build_tree toks).heap := by
  have hd := dom_ok_build toks
  have hc : childs_ok (build_tree toks).heap :=
    childs_ok_foldl toks dom_init dom_ok_init childs_ok_init
  have hl : listed_ok (build_tree toks).heap :=
    listed_ok_foldl toks dom_init dom_ok_init listed_ok_init
  refine ⟨?_, ?_, ?_, ?_, ?_, hc⟩
  · rw [tree_depth_eq _ hd hc (preorder_ok_build toks)]
    exact max_depth_nested toks hnest
  · exact max_depth_nested toks hnest
  · intro k n hk
    have hspec := depths_of_spec _ (dom_ok_parent_order _ hd)
    exact hspec k n.parent (by rw [List.getElem?_map, hk]; rfl)
  · exact tag_names_foldl toks dom_init dom_ok_init
  · intro k n hk
    exact childs_eq_nodes_below _ hc hl k n hk

/-- C10 at the tokens of `<div><p></p><a></a></div>`, a properly nested
sequence with at most two tags open: the tree reached through the children
lists has depth `2`, `Root` has the one child `div`, and `div` has the
children `p` and `a` in this order. -/
theorem nested_depth_and_order_witness :
    properly_nested [.start_tag "div".toList [], .start_tag "p".toList [], .end_tag "p".toList,
      .start_tag "a".toList [], .end_tag "a".toList, .end_tag "div".toList] ∧
    tree_depth (build_tree [.start_tag "div".toList [], .start_tag "p".toList [],
      .end_tag "p".toList, .start_tag "a".toList [], .end_tag "a".toList,
      .end_tag "div".toList]) = 2 ∧
    (build_tree [.start_tag "div".toList [], .start_tag "p".toList [],
      .end_tag "p".toList, .start_tag "a".toList [], .end_tag "a".toList,
      .end_tag "div".toList]).heap.map (fun n => (n.tag_name, n.childs))
      = [(none, [1]), (some "div".toList, [2, 3]), (some "p".toList, []),
          (some "a".toList, [])] :=
  ⟨by unfold properly_nested; decide,
   (nested_depth_and_order [.start_tag "div".toList [], .start_tag "p".toList [],
      .end_tag "p".toList, .start_tag "a".toList [], .end_tag "a".toList,
      .end_tag "div".toList] (by unfold properly_nested; decide)).1,
   by decide⟩

/-! ## Attribute lists -/

end Fenrir
